import Mathlib

/-!
Verification development for the lyric-video maker pipeline
(`openai_handler.py`, `video_maker.py`).

Strings are modelled as `List Char`; Python floats as `ℚ`; Python's
dynamic int/float/str values as explicit sum types; fallible code as
`Except`.  Each Python helper is embedded under its source name.
-/

deriving instance DecidableEq for Except

/-- Whitespace for Python `str.strip`: space, tab, CR, LF, vertical tab, form feed. -/
def isSpaceChar (c : Char) : Bool :=
  c.isWhitespace || c == '\x0b' || c == '\x0c'

/-- Python `str.strip()`: drop whitespace from both ends. -/
def trimChars (s : List Char) : List Char :=
  ((s.dropWhile isSpaceChar).reverse.dropWhile isSpaceChar).reverse

/-- Apply a function to the first part of a split result (helper for splitters). -/
def mapHead (f : List Char → List Char) : List (List Char) → List (List Char)
  | [] => []
  | h :: t => f h :: t

/-- Python `str.split(c)` for a single separator character (also models
`re.split` over a character class): splits at every separator, keeping
empty parts. -/
def splitOnChar (p : Char → Bool) : List Char → List (List Char)
  | [] => [[]]
  | c :: cs =>
    if p c then [] :: splitOnChar p cs
    else mapHead (c :: ·) (splitOnChar p cs)

/-- Python `str.split("\n\n")`: left-to-right, non-overlapping occurrences
of the two-character separator. -/
def splitNN : List Char → List (List Char)
  | [] => [[]]
  | '\n' :: '\n' :: cs => [] :: splitNN cs
  | c :: cs => mapHead (c :: ·) (splitNN cs)

/-- Python `str.split(" --> ")`: left-to-right, non-overlapping occurrences
of the five-character separator. -/
def splitArrow : List Char → List (List Char)
  | [] => [[]]
  | ' ' :: '-' :: '-' :: '>' :: ' ' :: cs => [] :: splitArrow cs
  | c :: cs => mapHead (c :: ·) (splitArrow cs)

/-- Numeric value of a string of decimal digit characters (most significant first). -/
def natOfDigits (ds : List Char) : ℕ :=
  ds.foldl (fun a c => 10 * a + (c.toNat - 48)) 0

/-- Digit characters of a natural number, fuel-driven so that it is
structurally recursive (fuel `n+1` always suffices). -/
def natToCharsAux : ℕ → ℕ → List Char → List Char
  | 0, _, acc => acc
  | fuel + 1, n, acc =>
    if n < 10 then Nat.digitChar n :: acc
    else natToCharsAux fuel (n / 10) (Nat.digitChar (n % 10) :: acc)

/-- Decimal rendering of a natural number, as Python `str(int)` on nonnegatives. -/
def natToChars (n : ℕ) : List Char :=
  natToCharsAux (n + 1) n []

/-- Left-pad with `'0'` to a given width (never truncates). -/
def zeroPadTo (w : ℕ) (s : List Char) : List Char :=
  List.replicate (w - s.length) '0' ++ s

/-- Python `f"{z:0wd}"`: zero-padded integer; the sign occupies one column. -/
def pyFmtZeroPad (w : ℕ) (z : ℤ) : List Char :=
  if z < 0 then '-' :: zeroPadTo (w - 1) (natToChars z.natAbs)
  else zeroPadTo w (natToChars z.natAbs)

/-- Python `int(str)`: strip whitespace, optional sign, decimal digits.
(Models the plain-decimal subset: no underscores or alternate bases.) -/
def pyInt? (s : List Char) : Option ℤ :=
  let t := trimChars s
  let digitsVal := fun (r : List Char) =>
    if r ≠ [] ∧ r.all Char.isDigit then some ((natOfDigits r : ℤ)) else none
  if t.head? = some '+' then digitsVal t.tail
  else if t.head? = some '-' then (digitsVal t.tail).map (fun z => -z)
  else digitsVal t

/-- Shared body of `pyFloat?` after the sign has been removed. -/
def pyFloatCore (sign : ℚ) (u : List Char) : Option ℚ :=
  match splitOnChar (· == '.') u with
  | [ip] =>
    if ip ≠ [] ∧ ip.all Char.isDigit then some (sign * (natOfDigits ip : ℚ)) else none
  | [ip, fp] =>
    if (ip ≠ [] ∨ fp ≠ []) ∧ ip.all Char.isDigit ∧ fp.all Char.isDigit then
      some (sign * ((natOfDigits ip : ℚ) + (natOfDigits fp : ℚ) / (10 : ℚ) ^ fp.length))
    else none
  | _ => none

/-- Python `float(str)`: strip whitespace, optional sign, decimal digits with
at most one point and at least one digit.  (Models the plain-decimal subset:
no exponents, infinities or underscores — the only forms timestamps use.) -/
def pyFloat? (s : List Char) : Option ℚ :=
  let t := trimChars s
  if t.head? = some '+' then pyFloatCore 1 t.tail
  else if t.head? = some '-' then pyFloatCore (-1) t.tail
  else pyFloatCore 1 t

/-- A Python number: the `int` / `float` distinction is observable
(e.g. `str(0)` vs `str(0.0)`), so it is kept. -/
inductive PyNum where
  | int (z : ℤ)
  | float (q : ℚ)
deriving DecidableEq, Repr

/-- Numeric value of a Python number. -/
def PyNum.toQ : PyNum → ℚ
  | .int z => (z : ℚ)
  | .float q => q

/-- A Python value that is either a number or a string (the two shapes the
SRT-entry fields can take in `generate_srt_from_lrc`). -/
inductive PyVal where
  | num (n : PyNum)
  | str (s : List Char)
deriving DecidableEq, Repr

/-- Python `int(x)` on a float: truncation toward zero. -/
def pyIntTrunc (q : ℚ) : ℤ :=
  if 0 ≤ q then ⌊q⌋ else -⌊-q⌋

/-- Python `%` on floats: `a - b * (a // b)` with floor division. -/
def pyMod (a b : ℚ) : ℚ :=
  a - b * (⌊a / b⌋ : ℤ)

/-- `openai_handler.convert_timestamp`: split on `':'`; on two float-parseable
parts return `minutes * 60 + seconds` (a float), on any failure return the
int `0` (the bare `except` catches the unpack/parse errors). -/
def convert_timestamp (timestamp : List Char) : PyNum :=
  match splitOnChar (· == ':') timestamp with
  | [m, s] =>
    match pyFloat? m, pyFloat? s with
    | some qm, some qs => .float (qm * 60 + qs)
    | _, _ => .int 0
  | _ => .int 0

/-- Python `f"{q:05.2f}"`: round to hundredths and render with two decimals,
zero-padded to width 5.  (Tie behaviour at exact half-hundredths differs from
binary-float formatting; no input in this development hits a tie.) -/
def pyFmt05_2f (q : ℚ) : List Char :=
  let n := round (100 * q)
  let cents := fun (m : ℕ) => natToChars (m / 100) ++ '.' :: zeroPadTo 2 (natToChars (m % 100))
  if n < 0 then '-' :: zeroPadTo 4 (cents n.natAbs)
  else zeroPadTo 5 (cents n.natAbs)

/-- `openai_handler.format_time`: seconds to `MM:SS.ss`
(`f"{minutes:02d}:{remaining_seconds:05.2f}"`). -/
def format_time (seconds : ℚ) : List Char :=
  pyFmtZeroPad 2 ⌊seconds / 60⌋ ++ ':' :: pyFmt05_2f (pyMod seconds 60)

/-- `openai_handler.seconds_to_srt_timestamp`: seconds to `HH:MM:SS,mmm`,
truncating via `int`. -/
def seconds_to_srt_timestamp (seconds : ℚ) : List Char :=
  let hours := ⌊seconds / 3600⌋
  let minutes := ⌊pyMod seconds 3600 / 60⌋
  let sec := pyIntTrunc (pyMod seconds 60)
  let milliseconds := pyIntTrunc ((seconds - (pyIntTrunc seconds : ℚ)) * 1000)
  pyFmtZeroPad 2 hours ++ ':' :: pyFmtZeroPad 2 minutes ++ ':' ::
    pyFmtZeroPad 2 sec ++ ',' :: pyFmtZeroPad 3 milliseconds

/-- Inner body of `video_maker.convert_to_seconds` before its `except`:
`re.split('[:,]', ...)`, exactly-4-parts check, `int` conversions. -/
def convert_to_seconds_inner (time_str : List Char) : Except (List Char) ℚ :=
  let parts := splitOnChar (fun c => c == ':' || c == ',') time_str
  if parts.length ≠ 4 then .error ("ValueError: bad time format".toList)
  else
    match parts with
    | [h, m, s, ms] =>
      match pyInt? h, pyInt? m, pyInt? s, pyInt? ms with
      | some hi, some mi, some si, some msi =>
        .ok ((hi : ℚ) * 3600 + (mi : ℚ) * 60 + (si : ℚ) + (msi : ℚ) / 1000)
      | _, _, _, _ => .error ("ValueError: invalid literal for int".toList)
    | _ => .error ("unreachable".toList)

/-- `video_maker.convert_to_seconds`: the `try/except` catches every failure of
the inner body and substitutes `0`, so the function always returns normally. -/
def convert_to_seconds (time_str : List Char) : Except (List Char) ℚ :=
  match convert_to_seconds_inner time_str with
  | .ok q => .ok q
  | .error _ => .ok 0

/-- `openai_handler.is_english`: every character is ASCII, whitespace, or in
the small punctuation set. -/
def is_english (text : List Char) : Bool :=
  text.all fun c =>
    c.toNat < 128 || c.isWhitespace ||
      ([',', '.', '!', '?', '-', '"', '\'', '(', ')'] : List Char).contains c

/-- Single left-to-right pass of `re.sub(r'translates to|in English:', '', text)`. -/
def removeMeta : List Char → List Char
  | 't' :: 'r' :: 'a' :: 'n' :: 's' :: 'l' :: 'a' :: 't' :: 'e' :: 's' ::
      ' ' :: 't' :: 'o' :: rest => removeMeta rest
  | 'i' :: 'n' :: ' ' :: 'E' :: 'n' :: 'g' :: 'l' :: 'i' :: 's' :: 'h' ::
      ':' :: rest => removeMeta rest
  | c :: rest => c :: removeMeta rest
  | [] => []

/-- A quote character for the cleanup regex: `"` or `'`. -/
def isQuoteChar (c : Char) : Bool := c == '"' || c == '\''

/-- Single left-to-right pass of `re.sub(r'^["\']+|["\']+$|\\"|\.+$', '', text)`;
the flag tracks whether the scan is still inside the leading-quote run that the
anchored first alternative consumes. -/
def subQuoteDot : Bool → List Char → List Char
  | _, [] => []
  | _, '\\' :: '"' :: rest => subQuoteDot false rest
  | atStart, c :: cs =>
    if atStart && isQuoteChar c then subQuoteDot true cs
    else if isQuoteChar c && cs.all isQuoteChar then []
    else if c == '.' && cs.all (· == '.') then []
    else c :: subQuoteDot false cs

/-- Does the text still contain a Hangul syllable (`re.search(r'[가-힣]', text)`)? -/
def hasKorean (s : List Char) : Bool :=
  s.any fun c => 0xAC00 ≤ c.toNat && c.toNat ≤ 0xD7A3

/-- `openai_handler.clean_translation`. -/
def clean_translation (text : List Char) : List Char :=
  let t1 := trimChars text
  let t2 := removeMeta t1
  let t3 := subQuoteDot true t2
  if hasKorean t3 then ("Translation error".toList) else trimChars t3

/-- `openai_handler.translate_lyrics`.  The external chat-completion call is
modelled by `response`: `.ok content` is the returned message text, `.error`
is any exception raised by the call or the response handling; the function's
`try/except` turns the latter into a pass-through of the input. -/
def translate_lyrics (lyrics : List (List Char))
    (response : Except (List Char) (List Char)) : List (List Char) :=
  if lyrics.all is_english then lyrics
  else
    match response with
    | .error _ => lyrics
    | .ok content =>
      (splitOnChar (· == '\n') (trimChars content)).filterMap fun line =>
        let l := trimChars line
        if l = [] then none else some (clean_translation l)

/-- The bracketed prefix of a line, as in `line[1:line.index(']')]` guarded by
`line.startswith('[') and ']' in line`. -/
def bracketTime? (line : List Char) : Option (List Char) :=
  match line with
  | [] => none
  | c :: rest =>
    if c = '[' ∧ ']' ∈ rest then some (rest.takeWhile (· != ']')) else none

/-- One element of the `lyrics_data` list built by `parse_lrc_and_translate`. -/
structure LyricEntry where
  start_time : PyNum
  original : List Char
  english : List Char
deriving DecidableEq, Repr

/-- The per-line body of the `parse_lrc_and_translate` loop: bracket check,
timestamp slice, text trim, empty-text drop, translation.  (The per-line
`try/except` is dead in this model: no step of the body can raise.) -/
def processLine? (oracle : List Char → Except (List Char) (List Char))
    (line : List Char) : Option LyricEntry :=
  match line with
  | [] => none
  | c :: rest =>
    if c = '[' ∧ ']' ∈ rest then
      let time_str := rest.takeWhile (· != ']')
      let text := trimChars (rest.drop (time_str.length + 1))
      if text = [] then none
      else
        some { start_time := convert_timestamp time_str
             , original := text
             , english := (translate_lyrics [text] (oracle text)).head?.getD
                 ("Translation failed".toList) }
    else none

/-- Insert into an ascending list, before the first element not below `x`
(keeps equal keys in input order). -/
def insertAsc (le : LyricEntry → LyricEntry → Bool) (x : LyricEntry) :
    List LyricEntry → List LyricEntry
  | [] => [x]
  | y :: ys => if le x y then x :: y :: ys else y :: insertAsc le x ys

/-- Models `lyrics_data.sort(key=lambda x: x['start_time'])`: a stable
ascending sort by `start_time` (insertion sort, which is stable). -/
def stableSortByStart (l : List LyricEntry) : List LyricEntry :=
  l.foldr (insertAsc fun a b => decide (a.start_time.toQ ≤ b.start_time.toQ)) []

/-- `openai_handler.parse_lrc_and_translate` (the in-memory transformation:
file I/O and JSON dumping are not modelled).  `artist`/`title` are the two
environment values; `oracle` gives the external translation response for each
requested line. -/
def parse_lrc_and_translate (content : List Char) (artist title : List Char)
    (oracle : List Char → Except (List Char) (List Char)) : List LyricEntry :=
  let lines := splitOnChar (· == '\n') content
  let first_lyric_time := (lines.filterMap bracketTime?).find? fun b => !b.isEmpty
  let modified :=
    match first_lyric_time with
    | some t =>
      ('[' :: (t ++ ']' :: (artist ++ ' ' :: '-' :: ' ' :: title))) ++ ('\n' :: content)
    | none => content
  stableSortByStart ((splitOnChar (· == '\n') modified).filterMap (processLine? oracle))

/-- `re.compile(r"\[(\d{2}:\d{2}\.\d{2})\]\s*(.*)").match(line)`: the captured
timestamp and the lyric text after optional whitespace. -/
def lrcMatch? (line : List Char) : Option (List Char × List Char) :=
  match line with
  | '[' :: d1 :: d2 :: ':' :: d3 :: d4 :: '.' :: d5 :: d6 :: ']' :: rest =>
    if d1.isDigit && d2.isDigit && d3.isDigit && d4.isDigit && d5.isDigit && d6.isDigit then
      some ([d1, d2, ':', d3, d4, '.', d5, d6], rest.dropWhile isSpaceChar)
    else none
  | _ => none

/-- The LRC-line scan of `generate_srt_from_lrc`: strip each line, skip empty
lines, keep the regex matches as `(timestamp, lyric)` pairs. -/
def parseLrcSubtitles (content : List Char) : List (List Char × List Char) :=
  (splitOnChar (· == '\n') content).filterMap fun l =>
    let l' := trimChars l
    if l' = [] then none else lrcMatch? l'

/-- One element of the `srt_entries` list of `generate_srt_from_lrc`. -/
structure SrtEntry where
  index : ℕ
  start : PyVal
  endv : PyVal
  original : List Char
  translated : List Char
deriving DecidableEq, Repr

/-- The last-entry fallback of `generate_srt_from_lrc` when no audio duration
is known: `start_time.split(":")` requires a string, so a numeric
`start_time` raises `AttributeError`; the string branch mirrors the
`parts`/`sec_parts` indexing and `int` conversions, whose failures also
propagate (there is no `try` around this loop). -/
def lastEndNoDuration (start_time : PyVal) (default_duration : ℚ) :
    Except (List Char) PyVal :=
  match start_time with
  | .num _ => .error ("AttributeError: no attribute split".toList)
  | .str s =>
    let parts := splitOnChar (· == ':') s
    match parts.get? 2 with
    | none => .error ("IndexError: list index out of range".toList)
    | some p2 =>
      let sec_parts := splitOnChar (· == ',') p2
      match parts.get? 0, parts.get? 1, sec_parts.get? 0, sec_parts.get? 1 with
      | some p0, some p1, some s0, some s1 =>
        match pyInt? p0, pyInt? p1, pyInt? s0, pyInt? s1 with
        | some h, some m, some se, some ms =>
          let total_sec : ℚ := (h : ℚ) * 3600 + (m : ℚ) * 60 + (se : ℚ) + (ms : ℚ) / 1000
          .ok (.str (seconds_to_srt_timestamp (total_sec + default_duration)))
        | _, _, _, _ => .error ("ValueError: invalid literal for int".toList)
      | _, _, _, _ => .error ("IndexError: list index out of range".toList)

/-- The translation step shared by both pipelines:
`translation[0] if translation else "Translation failed"`. -/
def translatedOf (oracle : List Char → Except (List Char) (List Char))
    (lyric : List Char) : List Char :=
  (translate_lyrics [lyric] (oracle lyric)).head?.getD ("Translation failed".toList)

/-- The `srt_entries` loop of `generate_srt_from_lrc` over the parsed
`(timestamp, lyric)` pairs, starting at 0-based position `i`.  Note the code
wraps both timestamps back in brackets before calling `convert_timestamp`. -/
def mkSrtEntries (oracle : List Char → Except (List Char) (List Char))
    (total_duration : Option ℚ) (default_duration : ℚ) :
    ℕ → List (List Char × List Char) → Except (List Char) (List SrtEntry)
  | _, [] => .ok []
  | i, (timestamp, lyric) :: rest =>
    let start := PyVal.num (convert_timestamp ('[' :: (timestamp ++ [']'])))
    let endvE : Except (List Char) PyVal :=
      match rest with
      | (next_timestamp, _) :: _ =>
        .ok (PyVal.num (convert_timestamp ('[' :: (next_timestamp ++ [']']))))
      | [] =>
        match total_duration with
        | some d => .ok (PyVal.str (seconds_to_srt_timestamp d))
        | none => lastEndNoDuration start default_duration
    match endvE with
    | .error e => .error e
    | .ok endv =>
      match mkSrtEntries oracle total_duration default_duration (i + 1) rest with
      | .error e => .error e
      | .ok tail =>
        .ok ({ index := i + 1, start := start, endv := endv,
               original := lyric, translated := translatedOf oracle lyric } :: tail)

/-- `openai_handler.generate_srt_from_lrc` (in-memory: `total_duration` is the
probed audio length, `none` when there is no audio file or probing failed). -/
def generate_srt_from_lrc (content : List Char) (total_duration : Option ℚ)
    (default_duration : ℚ)
    (oracle : List Char → Except (List Char) (List Char)) :
    Except (List Char) (List SrtEntry) :=
  mkSrtEntries oracle total_duration default_duration 0 (parseLrcSubtitles content)

/-- A subtitle record as the Subtitle Emitter consumes it (string fields,
1-based index). -/
structure SubEntry where
  index : ℕ
  start : List Char
  stop : List Char
  original : List Char
  translated : List Char
deriving DecidableEq, Repr

/-- One emitted block without its closing blank line: index line, time-range
line, original line, translated line. -/
def srtBlockCore (e : SubEntry) : List Char :=
  natToChars e.index ++ '\n' :: (e.start ++ ' ' :: '-' :: '-' :: '>' :: ' ' :: e.stop)
    ++ '\n' :: (e.original ++ '\n' :: e.translated)

/-- The SRT-writing loop of `generate_srt_from_lrc`: each entry contributes
its four lines followed by a blank separator line. -/
def writeSrt (entries : List SubEntry) : List Char :=
  (entries.map fun e => srtBlockCore e ++ ['\n', '\n']).flatten

/-- A parsed block of `video_maker.parse_srt_file` (the parser keeps no index
and joins all text lines into one field). -/
structure SrtSegment where
  start : List Char
  stop : List Char
  text : List Char
deriving DecidableEq, Repr

/-- `str.replace(',', '.')`. -/
def commaToDot (s : List Char) : List Char :=
  s.map fun c => if c = ',' then '.' else c

/-- One segment of `parse_srt_file`: blocks with fewer than 3 lines are
dropped; `times[1]` raises `IndexError` when the second line has no
`" --> "` separator. -/
def parseSegment (seg : List Char) : Except (List Char) (Option SrtSegment) :=
  let lines := splitOnChar (· == '\n') seg
  match lines with
  | _ :: l1 :: rest =>
    if rest = [] then .ok none
    else
      match splitArrow l1 with
      | t0 :: t1 :: _ =>
        .ok (some { start := commaToDot t0, stop := commaToDot t1
                  , text := List.intercalate ['\n'] rest })
      | _ => .error ("IndexError: list index out of range".toList)
  | _ => .ok none

/-- `video_maker.parse_srt_file` on file content: strip, split on blank-line
boundaries, parse each block. -/
def parse_srt_file (content : List Char) : Except (List Char) (List SrtSegment) :=
  ((splitNN (trimChars content)).mapM parseSegment).map (List.filterMap id)

/-- Modelled from the spec: the seconds value denoted by an `MM:SS.ss`
timestamp with minutes `mm`, seconds `ss` and centiseconds `ff` —
`minutes * 60 + seconds`. -/
def specDenotedSeconds (mm ss ff : ℕ) : ℚ :=
  (mm : ℚ) * 60 + (ss : ℚ) + (ff : ℚ) / 100

/-- A concrete failing external-translation collaborator, for evaluating the
pipelines at specific inputs. -/
def oracleErr : List Char → Except (List Char) (List Char) :=
  fun _ => .error ("network error".toList)

/-- Two zero-padded digits. -/
def pad2 (n : ℕ) : List Char := [Nat.digitChar (n / 10), Nat.digitChar (n % 10)]

/-- A valid `MM:SS.ss` lyric timestamp: zero-padded two-digit minutes
(`m < 100`) and zero-padded seconds with exactly two decimals, the seconds
field below 60 (`k < 6000` centiseconds). -/
def mmssChars (m k : ℕ) : List Char :=
  pad2 m ++ ':' :: (pad2 (k / 100) ++ '.' :: pad2 (k % 100))

/-- Number of nonempty (after stripping) lines in a response text. -/
def responseLineCount (content : List Char) : ℕ :=
  ((splitOnChar (· == '\n') (trimChars content)).filter
    (fun line => !(trimChars line).isEmpty)).length

/-- The SRT entry built at 0-based position `i` of the loop in
`generate_srt_from_lrc`, given the end value computed for it. -/
def mkEntry (oracle : List Char → Except (List Char) (List Char)) (i : ℕ)
    (ts ly : List Char) (endv : PyVal) : SrtEntry :=
  { index := i + 1,
    start := PyVal.num (convert_timestamp ('[' :: (ts ++ [']']))),
    endv := endv, original := ly, translated := translatedOf oracle ly }

/-- A two-line demonstration lyric input as parsed by the LRC scan. -/
def demoSubs : List (List Char × List Char) :=
  [("00:01.00".toList, "Hello".toList), ("00:05.50".toList, "World".toList)]

/-- The entries `generate_srt_from_lrc` computes for `demoSubs` with a known
10-second audio duration and a failing translation collaborator. -/
def demoEs : List SrtEntry :=
  [{ index := 1, start := PyVal.num (PyNum.int 0), endv := PyVal.num (PyNum.int 0),
     original := "Hello".toList, translated := "Hello".toList },
   { index := 2, start := PyVal.num (PyNum.int 0),
     endv := PyVal.str ("00:00:10,000".toList),
     original := "World".toList, translated := "World".toList }]

/-- Decidable check that `convert_timestamp` takes its failure path on `p`:
either `p` does not split on `':'` into exactly two parts, or a part is not
float-parseable. -/
def convFailsB (p : List Char) : Bool :=
  match splitOnChar (· == ':') p with
  | [m, s] => (pyFloat? m).isNone || (pyFloat? s).isNone
  | _ => true

/-- Decidable check that no line's bracketed timestamp text contains `'-'`. -/
def noMinusBrackets (content : List Char) : Bool :=
  (splitOnChar (· == '\n') content).all fun l =>
    match bracketTime? l with
    | some b => !(b.contains '-')
    | none => true

/-- The parsed segment the round-trip recovers from an emitted entry:
`','` becomes `'.'` in the time strings, and the parser joins the original
and translated lines into one text field. -/
def segmentOf (e : SubEntry) : SrtSegment :=
  { start := commaToDot e.start, stop := commaToDot e.stop
  , text := e.original ++ '\n' :: e.translated }

/-- Conditions under which an entry's emitted block survives the parser
unchanged: nonempty newline-free text lines, a translated line not ending in
whitespace, and whitespace-free time strings (as real timestamps are). -/
def goodEntry (e : SubEntry) : Bool :=
  !e.original.isEmpty && !e.translated.isEmpty &&
  e.original.all (fun c => c != '\n') && e.translated.all (fun c => c != '\n') &&
  e.start.all (fun c => !(isSpaceChar c)) && e.stop.all (fun c => !(isSpaceChar c)) &&
  (match e.translated.getLast? with
   | some c => !(isSpaceChar c)
   | none => true)

/-- `true` when the string has no occurrence of two adjacent newlines. -/
def noNN : List Char → Bool
  | [] => true
  | c :: cs => if c = '\n' ∧ cs.head? = some '\n' then false else noNN cs

/-- The emitted blocks joined by blank-line separators (no trailing one). -/
def joinBlocks : List (List Char) → List Char
  | [] => []
  | [b] => b
  | b :: bs => b ++ '\n' :: '\n' :: joinBlocks bs

/-- Decidable check that the body of `convert_to_seconds` raises (so the
`except` returns `0`): the input does not split on `':'`/`','` into exactly
4 parts, or some part is not `int`-parseable. -/
def toSecondsFailsB (s : List Char) : Bool :=
  match splitOnChar (fun c => c == ':' || c == ',') s with
  | [h, m, sec, ms] =>
    (pyInt? h).isNone || (pyInt? m).isNone || (pyInt? sec).isNone ||
      (pyInt? ms).isNone
  | _ => true

/-! ### Lemmas about the splitters -/

theorem mapHead_cons (f : List Char → List Char) (h : List Char)
    (t : List (List Char)) : mapHead f (h :: t) = f h :: t := rfl

theorem mapHead_append (f : List Char → List Char) (l l' : List (List Char))
    (h : l ≠ []) : mapHead f (l ++ l') = mapHead f l ++ l' := by
  cases l with
  | nil => exact absurd rfl h
  | cons a t => rfl

theorem splitOnChar_ne_nil (p : Char → Bool) (xs : List Char) :
    splitOnChar p xs ≠ [] := by
  induction xs with
  | nil => simp [splitOnChar]
  | cons c cs ih =>
    by_cases h : p c
    · simp [splitOnChar, h]
    · simp only [splitOnChar, h, if_neg, Bool.false_eq_true, if_false]
      cases hs : splitOnChar p cs with
      | nil => exact absurd hs ih
      | cons a t => simp [mapHead]

theorem splitOnChar_sep (p : Char → Bool) (xs : List Char) (c : Char)
    (ys : List Char) (hxs : ∀ a ∈ xs, p a = false) (hc : p c = true) :
    splitOnChar p (xs ++ c :: ys) = xs :: splitOnChar p ys := by
  induction xs with
  | nil => simp [splitOnChar, hc]
  | cons a t ih =>
    have ha : p a = false := hxs a (by simp)
    have ht : ∀ b ∈ t, p b = false := fun b hb => hxs b (by simp [hb])
    simp only [List.cons_append, List.append_eq, splitOnChar, ha, Bool.false_eq_true,
      if_false, ih ht, mapHead_cons]

theorem splitOnChar_single (p : Char → Bool) (xs : List Char)
    (hxs : ∀ a ∈ xs, p a = false) : splitOnChar p xs = [xs] := by
  induction xs with
  | nil => rfl
  | cons a t ih =>
    have ha : p a = false := hxs a (by simp)
    have ht : ∀ b ∈ t, p b = false := fun b hb => hxs b (by simp [hb])
    simp only [splitOnChar, ha, Bool.false_eq_true, if_false, ih ht, mapHead_cons]

theorem splitOnChar_append (p : Char → Bool) (xs : List Char) (c : Char)
    (ys : List Char) (hc : p c = true) :
    splitOnChar p (xs ++ c :: ys) = splitOnChar p xs ++ splitOnChar p ys := by
  induction xs with
  | nil => simp [splitOnChar, hc]
  | cons a t ih =>
    by_cases ha : p a
    · simp [splitOnChar, ha, ih]
    · simp only [List.cons_append, List.append_eq, splitOnChar, ha, Bool.false_eq_true,
        if_false, ih]
      exact mapHead_append _ _ _ (splitOnChar_ne_nil p t)

theorem mem_of_mem_splitOnChar (p : Char → Bool) (xs : List Char)
    (part : List Char) (c : Char) (hp : part ∈ splitOnChar p xs)
    (hc : c ∈ part) : c ∈ xs := by
  induction xs generalizing part with
  | nil =>
    simp [splitOnChar] at hp
    subst hp
    exact absurd hc (List.not_mem_nil c)
  | cons a t ih =>
    by_cases ha : p a
    · simp only [splitOnChar, ha, if_true, List.mem_cons] at hp
      rcases hp with h | h
      · subst h; exact absurd hc (List.not_mem_nil c)
      · exact List.mem_cons_of_mem a (ih part h hc)
    · simp only [splitOnChar, ha, Bool.false_eq_true, if_false] at hp
      cases hs : splitOnChar p t with
      | nil => exact absurd hs (splitOnChar_ne_nil p t)
      | cons b bs =>
        rw [hs, mapHead_cons] at hp
        rcases List.mem_cons.mp hp with h | h
        · subst h
          rcases List.mem_cons.mp hc with h' | h'
          · simp [h']
          · exact List.mem_cons_of_mem a (ih b (by simp [hs]) h')
        · exact List.mem_cons_of_mem a (ih part (by simp [hs, h]) hc)

/-! ### C4: subtitle-timestamp-to-seconds conversion -/

/-- Claim C4 counterexample: on the malformed input `"bad"` the function does
not raise (propagate) a `ValueError` to its caller — it returns `0`, because
its own `try/except` catches the error. -/
theorem claim_C4_counterexample :
    convert_to_seconds ("bad".toList) = Except.ok 0 := by decide

theorem toSeconds_fails (s : List Char) (hf : toSecondsFailsB s = true) :
    convert_to_seconds s = Except.ok 0 := by
  unfold toSecondsFailsB at hf
  unfold convert_to_seconds convert_to_seconds_inner
  generalize hp : splitOnChar (fun c => c == ':' || c == ',') s = parts at hf ⊢
  by_cases hlen : parts.length ≠ 4
  · rw [if_pos hlen]
  · push_neg at hlen
    obtain ⟨h, m, sec, ms, hps⟩ : ∃ a b c d, parts = [a, b, c, d] := by
      cases parts with
      | nil => simp at hlen
      | cons a t =>
        cases t with
        | nil => simp at hlen
        | cons b t2 =>
          cases t2 with
          | nil => simp at hlen
          | cons c t3 =>
            cases t3 with
            | nil => simp at hlen
            | cons d t4 =>
              cases t4 with
              | nil => exact ⟨a, b, c, d, rfl⟩
              | cons x t5 => simp at hlen
    subst hps
    rw [if_neg (by simp)] at *
    show (match (match pyInt? h, pyInt? m, pyInt? sec, pyInt? ms with
        | some hi, some mi, some si, some msi =>
            (Except.ok ((hi : ℚ) * 3600 + (mi : ℚ) * 60 + (si : ℚ) +
              (msi : ℚ) / 1000) : Except (List Char) ℚ)
        | _, _, _, _ =>
            Except.error ("ValueError: invalid literal for int".toList)) with
      | Except.ok q => Except.ok q
      | Except.error _ => Except.ok 0) = (Except.ok 0 : Except (List Char) ℚ)
    cases e1 : pyInt? h with
    | none => rfl
    | some hi =>
      cases e2 : pyInt? m with
      | none => rfl
      | some mi =>
        cases e3 : pyInt? sec with
        | none => rfl
        | some si =>
          cases e4 : pyInt? ms with
          | none => rfl
          | some msi => simp [e1, e2, e3, e4] at hf

/-- Claim C4 (amended): `convert_to_seconds` always returns normally; on any
input that does not split on `':'`/`','` into exactly 4 int-parseable
components — wrong part count, or 4 parts with a non-numeric one — it returns
`0` (the internal `ValueError` is caught, not propagated), and on a
well-formed `HH:MM:SS,mmm` input it returns `h*3600 + m*60 + s + ms/1000`. -/
theorem claim_C4_amended :
    (∀ s : List Char, ∃ q : ℚ, convert_to_seconds s = Except.ok q) ∧
    (∀ s : List Char,
      (splitOnChar (fun c => c == ':' || c == ',') s).length ≠ 4 →
        convert_to_seconds s = Except.ok 0) ∧
    (∀ s : List Char, toSecondsFailsB s = true →
        convert_to_seconds s = Except.ok 0) ∧
    (∀ h m sec ms : List Char, ∀ hi mi si msi : ℤ,
      (∀ a ∈ h, (a == ':' || a == ',') = false) →
      (∀ a ∈ m, (a == ':' || a == ',') = false) →
      (∀ a ∈ sec, (a == ':' || a == ',') = false) →
      (∀ a ∈ ms, (a == ':' || a == ',') = false) →
      pyInt? h = some hi → pyInt? m = some mi →
      pyInt? sec = some si → pyInt? ms = some msi →
      convert_to_seconds (h ++ ':' :: (m ++ ':' :: (sec ++ ',' :: ms))) =
        Except.ok ((hi : ℚ) * 3600 + (mi : ℚ) * 60 + (si : ℚ) + (msi : ℚ) / 1000)) := by
  refine ⟨?_, ?_, ?_, ?_⟩
  · intro s
    unfold convert_to_seconds
    cases hin : convert_to_seconds_inner s with
    | ok q => exact ⟨q, rfl⟩
    | error e => exact ⟨0, rfl⟩
  · intro s hlen
    unfold convert_to_seconds convert_to_seconds_inner
    simp only [if_pos hlen]
  · exact toSeconds_fails
  · intro h m sec ms hi mi si msi hh hm hs hms ph pm ps pms
    have hsplit : splitOnChar (fun c => c == ':' || c == ',')
        (h ++ ':' :: (m ++ ':' :: (sec ++ ',' :: ms))) = [h, m, sec, ms] := by
      rw [splitOnChar_sep _ _ _ _ hh (by decide),
          splitOnChar_sep _ _ _ _ hm (by decide),
          splitOnChar_sep _ _ _ _ hs (by decide),
          splitOnChar_single _ _ hms]
    unfold convert_to_seconds convert_to_seconds_inner
    rw [hsplit]
    simp only [List.length_cons, List.length_nil, ph, pm, ps, pms]
    norm_num

/-- Claim C4 witness: the amended theorem applied at the 4-part input
`"1:2:3,x"` with a non-numeric part (caught, returns `0`) and at the
well-formed input `"00:01:02,500"`. -/
theorem claim_C4_witness :
    convert_to_seconds ("1:2:3,x".toList) = Except.ok 0 ∧
    convert_to_seconds (("00".toList) ++ ':' :: (("01".toList) ++ ':' ::
        (("02".toList) ++ ',' :: ("500".toList)))) =
      Except.ok ((0 : ℚ) * 3600 + (1 : ℚ) * 60 + (2 : ℚ) + (500 : ℚ) / 1000) :=
  ⟨claim_C4_amended.2.2.1 _ (by decide),
   claim_C4_amended.2.2.2 _ _ _ _ 0 1 2 500 (by decide) (by decide) (by decide)
    (by decide) (by decide) (by decide) (by decide) (by decide)⟩

/-! ### C6: translation failures degrade to pass-through -/

/-- Claim C6: whenever the external translation call (or its response
handling) fails with any exception, `translate_lyrics` catches it and returns
the original input lines unchanged; in this embedding the function's return
type carries no error channel, so no exception ever propagates. -/
theorem claim_C6 (lyrics : List (List Char)) (err : List Char) :
    translate_lyrics lyrics (Except.error err) = lyrics := by
  unfold translate_lyrics
  by_cases h : lyrics.all is_english <;> simp [h]

/-! ### C5: translation output length is response-driven -/

/-- Claim C5 counterexample: one non-English input line with a two-line
service response yields two output lines — the output length is not the
input length. -/
theorem claim_C5_counterexample :
    (translate_lyrics [("안녕".toList)]
        (Except.ok ("Hello\nthere".toList))).length ≠
      [("안녕".toList)].length := by decide

/-- The output length of the translated batch equals the number of nonempty
stripped lines of the response, independent of the request. -/
theorem length_translate_filterMap (ls : List (List Char)) :
    (ls.filterMap fun line =>
      let l := trimChars line
      if l = [] then none else some (clean_translation l)).length =
    (ls.filter fun line => !(trimChars line).isEmpty).length := by
  induction ls with
  | nil => rfl
  | cons a t ih =>
    by_cases h : trimChars a = []
    · simp [List.filterMap_cons, List.filter_cons, h, ih]
    · simp [List.filterMap_cons, List.filter_cons, h, ih,
        List.isEmpty_iff]

/-- Claim C5 (amended): for an all-English batch or a failing call the input
comes back unchanged (same length, order-preserving); otherwise the output is
built from the response text alone — its length is the number of nonempty
response lines (not the input length), and it does not depend on the input
batch at all. -/
theorem claim_C5_amended :
    (∀ lyrics svc, lyrics.all is_english = true →
      translate_lyrics lyrics svc = lyrics) ∧
    (∀ lyrics content, lyrics.all is_english = false →
      (translate_lyrics lyrics (Except.ok content)).length =
        responseLineCount content) ∧
    (∀ l₁ l₂ content, l₁.all is_english = false → l₂.all is_english = false →
      translate_lyrics l₁ (Except.ok content) =
        translate_lyrics l₂ (Except.ok content)) := by
  refine ⟨?_, ?_, ?_⟩
  · intro lyrics svc h
    unfold translate_lyrics
    simp [h]
  · intro lyrics content h
    unfold translate_lyrics responseLineCount
    simp only [h, Bool.false_eq_true, if_false]
    exact length_translate_filterMap _
  · intro l₁ l₂ content h₁ h₂
    unfold translate_lyrics
    simp [h₁, h₂]

/-- Claim C5 witness: the amended theorem applied at the concrete non-English
batch and two-line response from the counterexample. -/
theorem claim_C5_witness :
    (translate_lyrics [("안녕".toList)]
        (Except.ok ("Hello\nthere".toList))).length =
      responseLineCount ("Hello\nthere".toList) :=
  claim_C5_amended.2.1 _ _ (by decide)

/-! ### C1: last-entry fallback without a known duration -/

/-- Claim C1 (code bug): on a lyric source with one parsed entry and no known
audio duration, `generate_srt_from_lrc` does not complete with
`end = start + default_span`; it raises `AttributeError`, because `start_time`
is the int `0` returned by `convert_timestamp` for the bracket-wrapped
timestamp and ints have no `.split`. -/
theorem claim_C1 :
    generate_srt_from_lrc ("[00:01.00]Hello".toList) none 3 oracleErr =
      Except.error ("AttributeError: no attribute split".toList) := by decide

/-! ### The bracket-wrapped timestamp always fails to convert -/

theorem trimChars_cons (c : Char) (r : List Char) (h : isSpaceChar c = false) :
    trimChars (c :: r) = c :: (r.reverse.dropWhile isSpaceChar).reverse := by
  unfold trimChars
  rw [List.dropWhile_cons_of_neg (by simp [h]), List.reverse_cons,
    List.dropWhile_append]
  by_cases he : (r.reverse.dropWhile isSpaceChar).isEmpty
  · simp only [he, if_true]
    rw [List.dropWhile_cons_of_neg (by simp [h])]
    simp only [List.dropWhile_nil, List.reverse_cons, List.reverse_nil,
      List.nil_append]
    have : r.reverse.dropWhile isSpaceChar = [] := by
      simpa [List.isEmpty_iff] using he
    rw [this]
    rfl
  · simp only [he, if_false, Bool.false_eq_true, List.reverse_append,
      List.reverse_cons, List.reverse_nil, List.nil_append, List.cons_append,
      List.singleton_append]

theorem pyFloatCore_head_bad (sign : ℚ) (c : Char) (u : List Char)
    (hd : c.isDigit = false) (hdot : (c == '.') = false) :
    pyFloatCore sign (c :: u) = none := by
  unfold pyFloatCore
  cases hs : splitOnChar (· == '.') u with
  | nil => exact absurd hs (splitOnChar_ne_nil _ u)
  | cons b bs =>
    have hrw : splitOnChar (· == '.') (c :: u) = (c :: b) :: bs := by
      simp only [splitOnChar, hdot, Bool.false_eq_true, if_false, hs, mapHead_cons]
    rw [hrw]
    cases bs with
    | nil => simp [hd]
    | cons b2 bs2 =>
      cases bs2 with
      | nil => simp [hd]
      | cons _ _ => rfl

theorem pyFloat?_bracket (r : List Char) : pyFloat? ('[' :: r) = none := by
  unfold pyFloat?
  rw [trimChars_cons '[' r (by decide)]
  simp only [List.head?_cons]
  rw [if_neg (by decide), if_neg (by decide)]
  exact pyFloatCore_head_bad 1 '[' _ (by decide) (by decide)

theorem convert_timestamp_bracket (ts : List Char) :
    convert_timestamp ('[' :: (ts ++ [']'])) = PyNum.int 0 := by
  unfold convert_timestamp
  cases hs : splitOnChar (· == ':') (ts ++ [']']) with
  | nil => exact absurd hs (splitOnChar_ne_nil _ _)
  | cons b bs =>
    have hrw : splitOnChar (· == ':') ('[' :: (ts ++ [']'])) = ('[' :: b) :: bs := by
      simp only [splitOnChar, (by decide : (('[' : Char) == ':') = false),
        Bool.false_eq_true, if_false, hs, mapHead_cons]
    rw [hrw]
    cases bs with
    | nil => rfl
    | cons b2 bs2 =>
      cases bs2 with
      | nil =>
        have hb : pyFloat? ('[' :: b) = none := pyFloat?_bracket b
        cases hpf2 : pyFloat? b2 <;> simp [hb, hpf2]
      | cons _ _ => rfl

/-! ### Shape of the SRT-entry loop -/

/-- One unfolding of `mkSrtEntries` on a nonempty list that returned
normally: the head entry carries `convert_timestamp` of the bracket-wrapped
timestamp as its start, and the tail is the recursive result. -/
theorem mkSrtEntries_ok_head (oracle : List Char → Except (List Char) (List Char))
    (dur : Option ℚ) (dflt : ℚ) (i : ℕ) (ts ly : List Char)
    (rest : List (List Char × List Char)) (es : List SrtEntry)
    (h : mkSrtEntries oracle dur dflt i ((ts, ly) :: rest) = Except.ok es) :
    ∃ endv tail,
      es = mkEntry oracle i ts ly endv :: tail ∧
      mkSrtEntries oracle dur dflt (i + 1) rest = Except.ok tail ∧
      (∀ nts nly rest2, rest = (nts, nly) :: rest2 →
        endv = PyVal.num (convert_timestamp ('[' :: (nts ++ [']'])))) := by
  cases rest with
  | nil =>
    cases dur with
    | none =>
      simp only [mkSrtEntries, lastEndNoDuration] at h
      exact Except.noConfusion h
    | some d =>
      simp only [mkSrtEntries] at h
      refine ⟨PyVal.str (seconds_to_srt_timestamp d), [], ?_, rfl, ?_⟩
      · exact (Except.ok.inj h).symm
      · intro nts nly rest2 hcon
        cases hcon
  | cons p2 rest2 =>
    obtain ⟨nts, nly⟩ := p2
    have h' : Except.ok es =
        match mkSrtEntries oracle dur dflt (i + 1) ((nts, nly) :: rest2) with
        | .error e => Except.error e
        | .ok tail =>
          Except.ok (mkEntry oracle i ts ly
            (PyVal.num (convert_timestamp ('[' :: (nts ++ [']'])))) :: tail) := h.symm
    cases hrec : mkSrtEntries oracle dur dflt (i + 1) ((nts, nly) :: rest2) with
    | error e =>
      rw [hrec] at h'
      exact Except.noConfusion h'.symm
    | ok tail =>
      rw [hrec] at h'
      refine ⟨PyVal.num (convert_timestamp ('[' :: (nts ++ [']']))), tail,
        Except.ok.inj h', rfl, ?_⟩
      intro nts2 nly2 rest3 hcon
      cases hcon
      rfl

/-! ### C10 and C2: what the SRT-entry loop actually writes -/

/-- With a known total duration the SRT-entry loop always returns normally,
and every entry's start is the numeric int-0 fallback. -/
theorem mkSrtEntries_some_ok (oracle : List Char → Except (List Char) (List Char))
    (d dflt : ℚ) :
    ∀ (subs : List (List Char × List Char)) (i : ℕ), ∃ es,
      mkSrtEntries oracle (some d) dflt i subs = Except.ok es ∧
      ∀ e ∈ es, e.start = PyVal.num (PyNum.int 0) := by
  intro subs
  induction subs with
  | nil => exact fun i => ⟨[], rfl, by simp⟩
  | cons p rest ih =>
    intro i
    obtain ⟨ts, ly⟩ := p
    obtain ⟨tail, htail, hst⟩ := ih (i + 1)
    cases rest with
    | nil =>
      refine ⟨[mkEntry oracle i ts ly (PyVal.str (seconds_to_srt_timestamp d))],
        rfl, ?_⟩
      intro e he
      rw [List.mem_singleton] at he
      subst he
      show PyVal.num (convert_timestamp ('[' :: (ts ++ [']']))) = _
      rw [convert_timestamp_bracket]
    | cons p2 rest2 =>
      obtain ⟨nts, nly⟩ := p2
      have key : Except.ok (mkEntry oracle i ts ly
            (PyVal.num (convert_timestamp ('[' :: (nts ++ [']'])))) :: tail) =
          match mkSrtEntries oracle (some d) dflt (i + 1) ((nts, nly) :: rest2) with
          | .error e => Except.error e
          | .ok t =>
            Except.ok (mkEntry oracle i ts ly
              (PyVal.num (convert_timestamp ('[' :: (nts ++ [']'])))) :: t) := by
        rw [htail]
      refine ⟨mkEntry oracle i ts ly
          (PyVal.num (convert_timestamp ('[' :: (nts ++ [']'])))) :: tail,
        key.symm, ?_⟩
      intro e he
      rcases List.mem_cons.mp he with h | h
      · subst h
        show PyVal.num (convert_timestamp ('[' :: (ts ++ [']']))) = _
        rw [convert_timestamp_bracket]
      · exact hst e h

/-- Claim C10: for every matched lyric line the start value that
`generate_srt_from_lrc` stores (and later writes to the subtitle file) is
`convert_timestamp` of the bracket-wrapped timestamp text — which always
fails to parse and yields the numeric int fallback `0`, never an
`HH:MM:SS,mmm` string. -/
theorem claim_C10 :
    (∀ ts : List Char, convert_timestamp ('[' :: (ts ++ [']'])) = PyNum.int 0) ∧
    (∀ (oracle : List Char → Except (List Char) (List Char)) (d dflt : ℚ)
        (subs : List (List Char × List Char)) (i : ℕ), ∃ es,
      mkSrtEntries oracle (some d) dflt i subs = Except.ok es ∧
      ∀ e ∈ es, e.start = PyVal.num (PyNum.int 0)) :=
  ⟨convert_timestamp_bracket,
   fun oracle d dflt subs i => mkSrtEntries_some_ok oracle d dflt subs i⟩

/-- Claim C2 (amended): whenever the SRT-entry loop returns normally, every
non-last entry's end equals the next entry's start exactly — but both are
`convert_timestamp` of the bracket-wrapped timestamp, i.e. the int-0
fallback, not the seconds values denoted by the `MM:SS.ss` timestamps. -/
theorem claim_C2_amended
    (oracle : List Char → Except (List Char) (List Char)) (dur : Option ℚ)
    (dflt : ℚ) :
    ∀ (subs : List (List Char × List Char)) (i : ℕ) (es : List SrtEntry),
      mkSrtEntries oracle dur dflt i subs = Except.ok es →
      ∀ (j : ℕ) (h1 : j < es.length) (h2 : j + 1 < es.length),
        (es.get ⟨j, h1⟩).endv = (es.get ⟨j + 1, h2⟩).start ∧
        (es.get ⟨j, h1⟩).endv = PyVal.num (PyNum.int 0) := by
  intro subs
  induction subs with
  | nil =>
    intro i es hok j h1 h2
    obtain rfl : ([] : List SrtEntry) = es := Except.ok.inj hok
    simp at h1
  | cons p rest ih =>
    intro i es hok j h1 h2
    obtain ⟨ts, ly⟩ := p
    obtain ⟨endv, tail, rfl, htail, hnext⟩ :=
      mkSrtEntries_ok_head _ _ _ _ _ _ _ _ hok
    cases j with
    | zero =>
      cases rest with
      | nil =>
        obtain rfl : ([] : List SrtEntry) = tail := Except.ok.inj htail
        simp at h2
      | cons p2 rest2 =>
        obtain ⟨nts, nly⟩ := p2
        have hendv := hnext nts nly rest2 rfl
        obtain ⟨endv2, tail2, rfl, _, _⟩ :=
          mkSrtEntries_ok_head _ _ _ _ _ _ _ _ htail
        constructor
        · show endv = (mkEntry oracle (i + 1) nts nly endv2).start
          rw [hendv]
          rfl
        · show endv = _
          rw [hendv, convert_timestamp_bracket]
    | succ k =>
      have h1' : k < tail.length := by simpa using h1
      have h2' : k + 1 < tail.length := by simpa using h2
      have hrec := ih (i + 1) tail htail k h1' h2'
      simpa [List.get_cons_succ] using hrec

unseal Rat.add Rat.mul Rat.sub Rat.inv in
/-- Claim C2 counterexample: with timestamps `00:01.00` and `00:05.50`, the
first entry's derived end is the numeric `0`, not the `5.5` seconds denoted
by the second `MM:SS.ss` timestamp. -/
theorem claim_C2_counterexample :
    ((generate_srt_from_lrc ("[00:01.00]Hello\n[00:05.50]World".toList)
        (some 10) 3 oracleErr).toOption.bind List.head?).map SrtEntry.endv =
      some (PyVal.num (PyNum.int 0)) ∧
    specDenotedSeconds 0 5 50 ≠ (PyNum.int 0).toQ := by
  constructor
  · decide
  · norm_num [specDenotedSeconds, PyNum.toQ]

unseal Rat.add Rat.mul Rat.sub Rat.inv in
/-- Claim C2 witness: the amended theorem applied to the concrete two-entry
run with a known 10-second duration. -/
theorem claim_C2_witness :
    (demoEs.get ⟨0, by decide⟩).endv = (demoEs.get ⟨1, by decide⟩).start ∧
    (demoEs.get ⟨0, by decide⟩).endv = PyVal.num (PyNum.int 0) :=
  claim_C2_amended oracleErr (some 10) 3 demoSubs 0 demoEs (by decide) 0
    (by decide) (by decide)

/-! ### Membership lemmas for the lyric parser -/

theorem mem_insertAsc (le : LyricEntry → LyricEntry → Bool) (x a : LyricEntry)
    (l : List LyricEntry) : a ∈ insertAsc le x l ↔ a = x ∨ a ∈ l := by
  induction l with
  | nil => simp [insertAsc]
  | cons y ys ih =>
    unfold insertAsc
    by_cases hle : le x y
    · simp only [hle, if_true, List.mem_cons]
    · simp only [hle, Bool.false_eq_true, if_false, List.mem_cons, ih]
      tauto

theorem mem_stableSortByStart (l : List LyricEntry) (a : LyricEntry) :
    a ∈ stableSortByStart l ↔ a ∈ l := by
  unfold stableSortByStart
  induction l with
  | nil => simp
  | cons y ys ih =>
    simp only [List.foldr_cons, mem_insertAsc, ih, List.mem_cons]

theorem sep_not_mem_splitOnChar (p : Char → Bool) (xs : List Char)
    (part : List Char) (c : Char) (hp : part ∈ splitOnChar p xs)
    (hc : c ∈ part) : p c = false := by
  induction xs generalizing part with
  | nil =>
    simp [splitOnChar] at hp
    subst hp
    exact absurd hc (List.not_mem_nil c)
  | cons a t ih =>
    by_cases ha : p a
    · simp only [splitOnChar, ha, if_true, List.mem_cons] at hp
      rcases hp with h | h
      · subst h; exact absurd hc (List.not_mem_nil c)
      · exact ih part h hc
    · simp only [splitOnChar, ha, Bool.false_eq_true, if_false] at hp
      cases hs : splitOnChar p t with
      | nil => exact absurd hs (splitOnChar_ne_nil p t)
      | cons b bs =>
        rw [hs, mapHead_cons] at hp
        rcases List.mem_cons.mp hp with h | h
        · subst h
          rcases List.mem_cons.mp hc with h' | h'
          · subst h'; simpa using ha
          · exact ih b (by simp [hs]) h'
        · exact ih part (by simp [hs, h]) hc

theorem takeWhile_until (p t : List Char) (hp : ']' ∉ p) :
    (p ++ ']' :: t).takeWhile (· != ']') = p := by
  induction p with
  | nil => simp [List.takeWhile_cons]
  | cons a p' ih =>
    have ha : (a != ']') = true := by
      simp only [bne_iff_ne, ne_eq]
      intro h
      exact hp (by simp [h])
    have hp' : ']' ∉ p' := fun h => hp (List.mem_cons_of_mem _ h)
    simp [List.takeWhile_cons, ha, ih hp']

theorem drop_bracket (p t : List Char) :
    (p ++ ']' :: t).drop (p.length + 1) = t := by
  rw [show p ++ ']' :: t = (p ++ [']']) ++ t by simp]
  rw [show p.length + 1 = (p ++ [']']).length by simp]
  exact List.drop_left _ _

theorem processLine?_bracket (oracle : List Char → Except (List Char) (List Char))
    (p t : List Char) (hp : ']' ∉ p) (ht : trimChars t ≠ []) :
    processLine? oracle ('[' :: (p ++ ']' :: t)) = some
      { start_time := convert_timestamp p, original := trimChars t,
        english := (translate_lyrics [trimChars t]
          (oracle (trimChars t))).head?.getD ("Translation failed".toList) } := by
  simp only [processLine?]
  rw [if_pos ⟨trivial, by simp⟩]
  simp only [takeWhile_until p t hp, drop_bracket p t]
  rw [if_neg ht]

theorem processLine?_some (oracle : List Char → Except (List Char) (List Char))
    (l : List Char) (e : LyricEntry) (h : processLine? oracle l = some e) :
    ∃ ts, bracketTime? l = some ts ∧ e.start_time = convert_timestamp ts := by
  cases l with
  | nil => cases h
  | cons c rest =>
    simp only [processLine?] at h
    by_cases hc : c = '[' ∧ ']' ∈ rest
    · rw [if_pos hc] at h
      by_cases htx :
          trimChars (rest.drop ((rest.takeWhile (· != ']')).length + 1)) = []
      · rw [if_pos htx] at h
        cases h
      · rw [if_neg htx] at h
        obtain rfl := (Option.some.inj h).symm
        refine ⟨rest.takeWhile (· != ']'), ?_, rfl⟩
        simp only [bracketTime?]
        rw [if_pos hc]
    · rw [if_neg hc] at h
      cases h

theorem bracketTime?_no_rbracket (l t : List Char)
    (h : bracketTime? l = some t) : ']' ∉ t ∧ ∀ c ∈ t, c ∈ l := by
  cases l with
  | nil => cases h
  | cons c rest =>
    simp only [bracketTime?] at h
    by_cases hc : c = '[' ∧ ']' ∈ rest
    · rw [if_pos hc] at h
      obtain rfl := (Option.some.inj h).symm
      constructor
      · intro hm
        have := List.mem_takeWhile_imp hm
        simp at this
      · intro a ha
        exact List.mem_cons_of_mem _
          ((List.takeWhile_sublist _).subset ha)
    · rw [if_neg hc] at h
      cases h

theorem bracketTime?_intro (t r : List Char) (ht : ']' ∉ t) :
    bracketTime? ('[' :: (t ++ ']' :: r)) = some t := by
  simp only [bracketTime?]
  rw [if_pos ⟨trivial, by simp⟩, takeWhile_until t r ht]

theorem convFailsB_int0 (p : List Char) (h : convFailsB p = true) :
    convert_timestamp p = PyNum.int 0 := by
  unfold convFailsB at h
  unfold convert_timestamp
  cases hs : splitOnChar (· == ':') p with
  | nil => rfl
  | cons m bs =>
    rw [hs] at h
    cases bs with
    | nil => rfl
    | cons s bs2 =>
      cases bs2 with
      | cons _ _ => rfl
      | nil =>
        have h' : ((pyFloat? m).isNone || (pyFloat? s).isNone) = true := h
        show (match pyFloat? m, pyFloat? s with
          | some qm, some qs => PyNum.float (qm * 60 + qs)
          | _, _ => PyNum.int 0) = PyNum.int 0
        cases hpm : pyFloat? m with
        | none => cases pyFloat? s <;> rfl
        | some qm =>
          cases hps : pyFloat? s with
          | none => rfl
          | some qs =>
            rw [hpm, hps] at h'
            simp at h'

/-! ### C7: malformed timestamp lines do not abort the parse -/

theorem mem_parse_of_processLine (content artist title l : List Char)
    (oracle : List Char → Except (List Char) (List Char)) (e : LyricEntry)
    (hl : l ∈ splitOnChar (· == '\n') content)
    (hpe : processLine? oracle l = some e) :
    e ∈ parse_lrc_and_translate content artist title oracle := by
  simp only [parse_lrc_and_translate]
  rw [mem_stableSortByStart]
  cases hft : ((splitOnChar (· == '\n') content).filterMap bracketTime?).find?
      (fun b => !b.isEmpty) with
  | none =>
    exact List.mem_filterMap.mpr ⟨l, hl, hpe⟩
  | some t =>
    rw [splitOnChar_append _ _ '\n' _ (by decide), List.filterMap_append]
    exact List.mem_append_right _ (List.mem_filterMap.mpr ⟨l, hl, hpe⟩)

/-- Claim C7 (amended): for every lyric source containing a line `[p]text`
whose bracketed prefix `p` fails timestamp conversion (it does not split on
`':'` into exactly two float-parseable parts), whole-file parsing does not
abort; the conversion returns `0` and the parse still produces an entry for
that line with `start_time = 0` and the trimmed text as its original. -/
theorem claim_C7_amended (content artist title : List Char)
    (oracle : List Char → Except (List Char) (List Char)) (p t : List Char)
    (hmem : ('[' :: (p ++ ']' :: t)) ∈ splitOnChar (· == '\n') content)
    (hp : ']' ∉ p) (hfail : convFailsB p = true) (ht : trimChars t ≠ []) :
    ∃ e ∈ parse_lrc_and_translate content artist title oracle,
      e.start_time = PyNum.int 0 ∧ e.original = trimChars t := by
  refine ⟨{ start_time := convert_timestamp p, original := trimChars t,
            english := (translate_lyrics [trimChars t]
              (oracle (trimChars t))).head?.getD ("Translation failed".toList) },
    ?_, ?_, rfl⟩
  · exact mem_parse_of_processLine content artist title _ oracle _ hmem
      (processLine?_bracket oracle p t hp ht)
  · exact convFailsB_int0 p hfail

unseal Rat.add Rat.mul Rat.sub Rat.inv in
/-- Claim C7 counterexample: the line `[5:6]text` has a bracketed prefix that
is not a valid `MM:SS.ss` timestamp, yet the conversion does not return `0`:
both produced entries carry `start_time = 306`, and no entry has start 0. -/
theorem claim_C7_counterexample :
    (parse_lrc_and_translate ("[5:6]text".toList) ("A".toList) ("T".toList)
        oracleErr).map (fun e => e.start_time) =
      [PyNum.float 306, PyNum.float 306] ∧
    PyNum.float 306 ≠ PyNum.int 0 := by
  constructor
  · decide
  · decide

/-- Claim C7 witness: the amended theorem applied to the spec's own example
line `[bad]text`. -/
theorem claim_C7_witness :
    ∃ e ∈ parse_lrc_and_translate ("[bad]text".toList) ("A".toList)
        ("T".toList) oracleErr,
      e.start_time = PyNum.int 0 ∧ e.original = trimChars ("text".toList) :=
  claim_C7_amended _ _ _ oracleErr ("bad".toList) ("text".toList) (by decide)
    (by decide) (by decide) (by decide)

/-! ### C9: sign of parsed start times -/

theorem mem_trimChars (s : List Char) (c : Char) (h : c ∈ trimChars s) :
    c ∈ s := by
  unfold trimChars at h
  rw [List.mem_reverse] at h
  have h1 : c ∈ (s.dropWhile isSpaceChar).reverse :=
    (List.dropWhile_sublist _).subset h
  rw [List.mem_reverse] at h1
  exact (List.dropWhile_sublist _).subset h1

theorem pyFloatCore_one_nonneg (u : List Char) (q : ℚ)
    (h : pyFloatCore 1 u = some q) : 0 ≤ q := by
  unfold pyFloatCore at h
  cases hs : splitOnChar (· == '.') u with
  | nil => rw [hs] at h; cases h
  | cons b bs =>
    rw [hs] at h
    cases bs with
    | nil =>
      have h' : (if b ≠ [] ∧ b.all Char.isDigit = true then
          some ((1 : ℚ) * (natOfDigits b : ℚ)) else none) = some q := h
      by_cases hc : b ≠ [] ∧ b.all Char.isDigit = true
      · rw [if_pos hc] at h'
        obtain rfl := (Option.some.inj h').symm
        positivity
      · rw [if_neg hc] at h'; cases h'
    | cons b2 bs2 =>
      cases bs2 with
      | nil =>
        have h' : (if (b ≠ [] ∨ b2 ≠ []) ∧ b.all Char.isDigit = true ∧
              b2.all Char.isDigit = true then
            some ((1 : ℚ) * ((natOfDigits b : ℚ) +
              (natOfDigits b2 : ℚ) / (10 : ℚ) ^ b2.length)) else none) = some q := h
        by_cases hc : (b ≠ [] ∨ b2 ≠ []) ∧ b.all Char.isDigit = true ∧
            b2.all Char.isDigit = true
        · rw [if_pos hc] at h'
          obtain rfl := (Option.some.inj h').symm
          positivity
        · rw [if_neg hc] at h'; cases h'
      | cons _ _ => cases h

theorem pyFloat?_nonneg (s : List Char) (q : ℚ) (hminus : '-' ∉ s)
    (h : pyFloat? s = some q) : 0 ≤ q := by
  unfold pyFloat? at h
  by_cases h1 : (trimChars s).head? = some '+'
  · rw [if_pos h1] at h
    exact pyFloatCore_one_nonneg _ _ h
  · rw [if_neg h1] at h
    by_cases h2 : (trimChars s).head? = some '-'
    · exfalso
      have hm : '-' ∈ trimChars s := by
        cases ht : trimChars s with
        | nil => rw [ht] at h2; cases h2
        | cons a r =>
          rw [ht] at h2
          simp only [List.head?_cons, Option.some.injEq] at h2
          simp [h2]
      exact hminus (mem_trimChars s '-' hm)
    · rw [if_neg h2] at h
      exact pyFloatCore_one_nonneg _ _ h

theorem convert_timestamp_nonneg (ts : List Char) (h : '-' ∉ ts) :
    0 ≤ (convert_timestamp ts).toQ := by
  unfold convert_timestamp
  cases hs : splitOnChar (· == ':') ts with
  | nil =>
    show (0 : ℚ) ≤ (PyNum.int 0).toQ
    norm_num [PyNum.toQ]
  | cons m bs =>
    cases bs with
    | nil =>
      show (0 : ℚ) ≤ (PyNum.int 0).toQ
      norm_num [PyNum.toQ]
    | cons s bs2 =>
      cases bs2 with
      | cons _ _ =>
        show (0 : ℚ) ≤ (PyNum.int 0).toQ
        norm_num [PyNum.toQ]
      | nil =>
        have hm : '-' ∉ m := fun hc =>
          h (mem_of_mem_splitOnChar (· == ':') ts m '-' (by rw [hs]; simp) hc)
        have hs' : '-' ∉ s := fun hc =>
          h (mem_of_mem_splitOnChar (· == ':') ts s '-' (by rw [hs]; simp) hc)
        show (0 : ℚ) ≤ (match pyFloat? m, pyFloat? s with
          | some qm, some qs => PyNum.float (qm * 60 + qs)
          | _, _ => PyNum.int 0).toQ
        cases hpm : pyFloat? m with
        | none => cases pyFloat? s <;> simp [PyNum.toQ]
        | some qm =>
          cases hps : pyFloat? s with
          | none => simp [PyNum.toQ]
          | some qs =>
            have h1 := pyFloat?_nonneg m qm hm hpm
            have h2 := pyFloat?_nonneg s qs hs' hps
            simp only [PyNum.toQ]
            linarith

/-- Claim C9 (amended): provided no line's bracketed timestamp text contains
a minus sign (and the injected artist/title contain no newline), every
record produced by `parse_lrc_and_translate` has `start_time ≥ 0`; without
that proviso the invariant fails. -/
theorem claim_C9_amended (content artist title : List Char)
    (oracle : List Char → Except (List Char) (List Char))
    (hA : '\n' ∉ artist) (hT : '\n' ∉ title)
    (h : noMinusBrackets content = true) :
    ∀ e ∈ parse_lrc_and_translate content artist title oracle,
      0 ≤ e.start_time.toQ := by
  have hprop : ∀ l ∈ splitOnChar (· == '\n') content,
      ∀ b, bracketTime? l = some b → '-' ∉ b := by
    intro l hl b hb hmem
    have hall := List.all_eq_true.mp h l hl
    rw [hb] at hall
    have hcf : b.contains '-' = false := by simpa using hall
    rw [show b.contains '-' = List.elem '-' b from rfl,
      List.elem_eq_true_of_mem hmem] at hcf
    cases hcf
  intro e he
  simp only [parse_lrc_and_translate] at he
  rw [mem_stableSortByStart] at he
  cases hft : ((splitOnChar (· == '\n') content).filterMap bracketTime?).find?
      (fun b => !b.isEmpty) with
  | none =>
    rw [hft] at he
    obtain ⟨l, hl, hpl⟩ := List.mem_filterMap.mp he
    obtain ⟨ts, hbt, hst⟩ := processLine?_some oracle l e hpl
    rw [hst]
    exact convert_timestamp_nonneg ts (hprop l hl ts hbt)
  | some t =>
    rw [hft] at he
    obtain ⟨l0, hl0, hbt0⟩ :=
      List.mem_filterMap.mp (List.mem_of_find?_eq_some hft)
    have hbt0' := bracketTime?_no_rbracket l0 t hbt0
    have htm : '-' ∉ t := hprop l0 hl0 t hbt0
    have hintro : ∀ a ∈ ('[' :: (t ++ ']' :: (artist ++ ' ' :: '-' :: ' ' :: title))),
        ((a == '\n') : Bool) = false := by
      intro a ha
      have hne : a ≠ '\n' := by
        simp only [List.mem_cons, List.mem_append] at ha
        rcases ha with rfl | ha'
        · decide
        rcases ha' with hat | ha''
        · intro heq
          have hcl : a ∈ l0 := hbt0'.2 a hat
          have hsep := sep_not_mem_splitOnChar _ _ _ _ hl0 hcl
          rw [heq] at hsep
          simp at hsep
        rcases ha'' with rfl | ha3
        · decide
        rcases ha3 with haA | ha4
        · exact fun heq => hA (heq ▸ haA)
        rcases ha4 with rfl | ha5
        · decide
        rcases ha5 with rfl | ha6
        · decide
        rcases ha6 with rfl | haT
        · decide
        · exact fun heq => hT (heq ▸ haT)
      simpa using hne
    have hsplit : splitOnChar (· == '\n')
        (('[' :: (t ++ ']' :: (artist ++ ' ' :: '-' :: ' ' :: title))) ++
          ('\n' :: content)) =
        ('[' :: (t ++ ']' :: (artist ++ ' ' :: '-' :: ' ' :: title))) ::
          splitOnChar (· == '\n') content :=
      splitOnChar_sep _ _ _ _ hintro (by decide)
    rw [hsplit] at he
    obtain ⟨l, hl, hpl⟩ := List.mem_filterMap.mp he
    rcases List.mem_cons.mp hl with rfl | hl'
    · obtain ⟨ts, hbt, hst⟩ := processLine?_some oracle _ e hpl
      rw [bracketTime?_intro t _ hbt0'.1] at hbt
      obtain rfl := (Option.some.inj hbt).symm
      rw [hst]
      exact convert_timestamp_nonneg _ htm
    · obtain ⟨ts, hbt, hst⟩ := processLine?_some oracle l e hpl
      rw [hst]
      exact convert_timestamp_nonneg ts (hprop l hl' ts hbt)

unseal Rat.add Rat.mul Rat.sub Rat.inv in
/-- Claim C9 counterexample: the lyric source `[-01:30.00]hi` produces
records with `start_time = -30 < 0`, violating the claimed invariant. -/
theorem claim_C9_counterexample :
    (parse_lrc_and_translate ("[-01:30.00]hi".toList) ("A".toList)
        ("T".toList) oracleErr).map (fun e => e.start_time.toQ) =
      [-30, -30] ∧ ¬ (0 : ℚ) ≤ -30 := by
  constructor
  · decide
  · norm_num

unseal Rat.add Rat.mul Rat.sub Rat.inv in
/-- Claim C9 witness: the amended theorem applied to a concrete minus-free
lyric source. -/
theorem claim_C9_witness :
    0 ≤ ((parse_lrc_and_translate ("[00:01.00]Hi".toList) ("A".toList)
        ("T".toList) oracleErr).get ⟨0, by decide⟩).start_time.toQ :=
  claim_C9_amended _ _ _ oracleErr (by decide) (by decide) (by decide) _
    (List.get_mem _ _ _)

/-! ### C8: MM:SS.ss round-trip -/

theorem digitChar_facts : ∀ d : ℕ, d < 10 →
    (Nat.digitChar d).isDigit = true ∧ (Nat.digitChar d).toNat - 48 = d ∧
    ((Nat.digitChar d) == ':') = false ∧ ((Nat.digitChar d) == '.') = false ∧
    isSpaceChar (Nat.digitChar d) = false ∧ Nat.digitChar d ≠ '+' ∧
    Nat.digitChar d ≠ '-' := by decide

theorem pad2_all_digit (n : ℕ) (h : n < 100) :
    ∀ c ∈ pad2 n, c.isDigit = true := by
  intro c hc
  have h1 := digitChar_facts (n / 10) (by omega)
  have h2 := digitChar_facts (n % 10) (by omega)
  rcases List.mem_cons.mp hc with rfl | hc2
  · exact h1.1
  · rcases List.mem_cons.mp hc2 with rfl | hc3
    · exact h2.1
    · exact absurd hc3 (List.not_mem_nil c)

theorem pad2_char_facts (n : ℕ) (h : n < 100) : ∀ c ∈ pad2 n,
    c.isDigit = true ∧ ((c == ':') : Bool) = false ∧
    ((c == '.') : Bool) = false ∧ isSpaceChar c = false ∧
    c ≠ '+' ∧ c ≠ '-' := by
  intro c hc
  have h1 := digitChar_facts (n / 10) (by omega)
  have h2 := digitChar_facts (n % 10) (by omega)
  rcases List.mem_cons.mp hc with rfl | hc2
  · exact ⟨h1.1, h1.2.2.1, h1.2.2.2.1, h1.2.2.2.2.1,
      h1.2.2.2.2.2.1, h1.2.2.2.2.2.2⟩
  · rcases List.mem_cons.mp hc2 with rfl | hc3
    · exact ⟨h2.1, h2.2.2.1, h2.2.2.2.1, h2.2.2.2.2.1,
        h2.2.2.2.2.2.1, h2.2.2.2.2.2.2⟩
    · exact absurd hc3 (List.not_mem_nil c)

theorem natOfDigits_pad2 (n : ℕ) (h : n < 100) : natOfDigits (pad2 n) = n := by
  have h1 := digitChar_facts (n / 10) (by omega)
  have h2 := digitChar_facts (n % 10) (by omega)
  unfold natOfDigits pad2
  simp only [List.foldl_cons, List.foldl_nil]
  rw [h1.2.1, h2.2.1]
  omega

theorem dropWhile_all_false (p : Char → Bool) (s : List Char)
    (h : ∀ c ∈ s, p c = false) : s.dropWhile p = s := by
  cases s with
  | nil => rfl
  | cons a t =>
    rw [List.dropWhile_cons_of_neg]
    simp [h a (by simp)]

theorem trimChars_eq_self (s : List Char)
    (h : ∀ c ∈ s, isSpaceChar c = false) : trimChars s = s := by
  unfold trimChars
  rw [dropWhile_all_false _ _ h,
    dropWhile_all_false _ _ (fun c hc => h c (List.mem_reverse.mp hc)),
    List.reverse_reverse]

theorem natToChars_lt10 (n : ℕ) (h : n < 10) :
    natToChars n = [Nat.digitChar n] := by
  unfold natToChars
  simp only [natToCharsAux]
  rw [if_pos h]

theorem natToChars_two (n : ℕ) (h10 : 10 ≤ n) (h : n < 100) :
    natToChars n = [Nat.digitChar (n / 10), Nat.digitChar (n % 10)] := by
  unfold natToChars
  obtain ⟨n', rfl⟩ : ∃ n', n = n' + 1 := ⟨n - 1, by omega⟩
  simp only [natToCharsAux]
  rw [if_neg (by omega), if_pos (by omega : (n' + 1) / 10 < 10)]

theorem zeroPad_natToChars (n : ℕ) (h : n < 100) :
    zeroPadTo 2 (natToChars n) = pad2 n := by
  by_cases h10 : n < 10
  · rw [natToChars_lt10 n h10]
    unfold zeroPadTo pad2
    rw [Nat.div_eq_of_lt h10, Nat.mod_eq_of_lt h10]
    rfl
  · rw [natToChars_two n (by omega) h]
    unfold zeroPadTo pad2
    rfl

theorem pyFloat?_pad2 (n : ℕ) (h : n < 100) :
    pyFloat? (pad2 n) = some ((1 : ℚ) * (n : ℚ)) := by
  have hf := pad2_char_facts n h
  simp only [pyFloat?]
  rw [trimChars_eq_self _ (fun c hc => (hf c hc).2.2.2.1)]
  rw [if_neg ?hplus, if_neg ?hminus]
  case hplus =>
    intro hc
    simp only [pad2, List.head?_cons, Option.some.injEq] at hc
    exact (digitChar_facts (n / 10) (by omega)).2.2.2.2.2.1 hc
  case hminus =>
    intro hc
    simp only [pad2, List.head?_cons, Option.some.injEq] at hc
    exact (digitChar_facts (n / 10) (by omega)).2.2.2.2.2.2 hc
  unfold pyFloatCore
  rw [splitOnChar_single _ _ (fun c hc => (hf c hc).2.2.1)]
  have hall : (pad2 n).all Char.isDigit = true :=
    List.all_eq_true.mpr (fun c hc => (hf c hc).1)
  have hne : pad2 n ≠ [] := by simp [pad2]
  show (if pad2 n ≠ [] ∧ (pad2 n).all Char.isDigit = true then
      some ((1 : ℚ) * (natOfDigits (pad2 n) : ℚ)) else none) =
    some ((1 : ℚ) * (n : ℚ))
  rw [if_pos ⟨hne, hall⟩, natOfDigits_pad2 n h]

theorem pyFloat?_pad2_frac (a b : ℕ) (ha : a < 100) (hb : b < 100) :
    pyFloat? (pad2 a ++ '.' :: pad2 b) =
      some ((1 : ℚ) * ((a : ℚ) + (b : ℚ) / (10 : ℚ) ^ (pad2 b).length)) := by
  have hfa := pad2_char_facts a ha
  have hfb := pad2_char_facts b hb
  have hmem : ∀ c ∈ pad2 a ++ '.' :: pad2 b,
      isSpaceChar c = false := by
    intro c hc
    simp only [List.mem_append, List.mem_cons] at hc
    rcases hc with hca | rfl | hcb
    · exact (hfa c hca).2.2.2.1
    · decide
    · exact (hfb c hcb).2.2.2.1
  simp only [pyFloat?]
  rw [trimChars_eq_self _ hmem]
  have hhead : (pad2 a ++ '.' :: pad2 b).head? =
      some (Nat.digitChar (a / 10)) := rfl
  rw [if_neg ?hplus, if_neg ?hminus]
  case hplus =>
    intro hc
    rw [hhead] at hc
    simp only [Option.some.injEq] at hc
    exact (digitChar_facts (a / 10) (by omega)).2.2.2.2.2.1 hc
  case hminus =>
    intro hc
    rw [hhead] at hc
    simp only [Option.some.injEq] at hc
    exact (digitChar_facts (a / 10) (by omega)).2.2.2.2.2.2 hc
  unfold pyFloatCore
  rw [splitOnChar_sep _ _ _ _ (fun c hc => (hfa c hc).2.2.1) (by decide)]
  rw [splitOnChar_single _ _ (fun c hc => (hfb c hc).2.2.1)]
  have halla : (pad2 a).all Char.isDigit = true :=
    List.all_eq_true.mpr (fun c hc => (hfa c hc).1)
  have hallb : (pad2 b).all Char.isDigit = true :=
    List.all_eq_true.mpr (fun c hc => (hfb c hc).1)
  show (if (pad2 a ≠ [] ∨ pad2 b ≠ []) ∧ (pad2 a).all Char.isDigit = true ∧
      (pad2 b).all Char.isDigit = true then
      some ((1 : ℚ) * ((natOfDigits (pad2 a) : ℚ) +
        (natOfDigits (pad2 b) : ℚ) / (10 : ℚ) ^ (pad2 b).length))
    else none) = _
  rw [if_pos ⟨Or.inl (by simp [pad2]), halla, hallb⟩,
    natOfDigits_pad2 a ha, natOfDigits_pad2 b hb]

theorem convert_mmss (m k : ℕ) (hm : m < 100) (hk : k < 6000) :
    convert_timestamp (mmssChars m k) =
      PyNum.float ((1 : ℚ) * (m : ℚ) * 60 +
        (1 : ℚ) * (((k / 100 : ℕ) : ℚ) +
          ((k % 100 : ℕ) : ℚ) / (10 : ℚ) ^ (pad2 (k % 100)).length)) := by
  unfold convert_timestamp mmssChars
  have hrest : ∀ c ∈ pad2 (k / 100) ++ '.' :: pad2 (k % 100),
      ((c == ':') : Bool) = false := by
    intro c hc
    simp only [List.mem_append, List.mem_cons] at hc
    rcases hc with hca | rfl | hcb
    · exact ((pad2_char_facts (k / 100) (by omega)) c hca).2.1
    · decide
    · exact ((pad2_char_facts (k % 100) (by omega)) c hcb).2.1
  rw [splitOnChar_sep _ _ _ _
    (fun c hc => ((pad2_char_facts m hm) c hc).2.1) (by decide)]
  rw [splitOnChar_single _ _ hrest]
  show (match pyFloat? (pad2 m),
      pyFloat? (pad2 (k / 100) ++ '.' :: pad2 (k % 100)) with
    | some qm, some qs => PyNum.float (qm * 60 + qs)
    | _, _ => PyNum.int 0) = _
  rw [pyFloat?_pad2 m hm,
    pyFloat?_pad2_frac (k / 100) (k % 100) (by omega) (by omega)]

theorem floor_q60 (m s' f : ℕ) (hs' : s' ≤ 59) (hf : f < 100) :
    ⌊(60 * (m : ℚ) + (s' : ℚ) + (f : ℚ) / 100) / 60⌋ = (m : ℤ) := by
  have hr0 : (0 : ℚ) ≤ (s' : ℚ) + (f : ℚ) / 100 := by positivity
  have hrf : (f : ℚ) / 100 < 1 := by
    rw [div_lt_one (by norm_num)]
    exact_mod_cast hf
  have hr1 : (s' : ℚ) + (f : ℚ) / 100 < 60 := by
    have : (s' : ℚ) ≤ 59 := by exact_mod_cast hs'
    linarith
  rw [show (60 * (m : ℚ) + (s' : ℚ) + (f : ℚ) / 100) / 60 =
      ((s' : ℚ) + (f : ℚ) / 100) / 60 + ((m : ℤ) : ℚ) by push_cast; ring]
  rw [Int.floor_add_int]
  rw [Int.floor_eq_zero_iff.mpr ?_]
  · simp
  · constructor
    · positivity
    · rw [div_lt_one (by norm_num)]
      linarith

theorem pyFmt05_2f_sf (s' f : ℕ) (hs' : s' ≤ 59) (hf : f < 100) :
    pyFmt05_2f ((s' : ℚ) + (f : ℚ) / 100) = pad2 s' ++ '.' :: pad2 f := by
  simp only [pyFmt05_2f]
  have hround : round ((100 : ℚ) * ((s' : ℚ) + (f : ℚ) / 100)) =
      ((100 * s' + f : ℕ) : ℤ) := by
    rw [show (100 : ℚ) * ((s' : ℚ) + (f : ℚ) / 100) =
        ((100 * s' + f : ℕ) : ℚ) by push_cast; ring]
    exact_mod_cast round_natCast (100 * s' + f)
  rw [hround]
  rw [if_neg (by simp; positivity)]
  rw [Int.natAbs_ofNat]
  rw [show (100 * s' + f) / 100 = s' by omega,
    show (100 * s' + f) % 100 = f by omega]
  rw [zeroPad_natToChars f hf]
  by_cases hs10 : s' < 10
  · rw [natToChars_lt10 _ hs10]
    show zeroPadTo 5 (Nat.digitChar s' :: '.' :: pad2 f) = _
    unfold zeroPadTo
    rw [show pad2 s' = [Nat.digitChar 0, Nat.digitChar s'] by
      unfold pad2
      rw [Nat.div_eq_of_lt hs10, Nat.mod_eq_of_lt hs10]]
    rfl
  · rw [natToChars_two _ (by omega) (by omega)]
    show zeroPadTo 5 (Nat.digitChar (s' / 10) :: Nat.digitChar (s' % 10) ::
      '.' :: pad2 f) = _
    unfold zeroPadTo pad2
    rfl

theorem format_time_mmss (m k : ℕ) (hm : m < 100) (hk : k < 6000) :
    format_time (60 * (m : ℚ) + ((k / 100 : ℕ) : ℚ) +
      ((k % 100 : ℕ) : ℚ) / 100) = mmssChars m k := by
  have hs' : k / 100 ≤ 59 := by omega
  have hf : k % 100 < 100 := by omega
  unfold format_time
  rw [floor_q60 m (k / 100) (k % 100) hs' hf]
  have hmod : pyMod (60 * (m : ℚ) + ((k / 100 : ℕ) : ℚ) +
      ((k % 100 : ℕ) : ℚ) / 100) 60 =
      ((k / 100 : ℕ) : ℚ) + ((k % 100 : ℕ) : ℚ) / 100 := by
    unfold pyMod
    rw [floor_q60 m (k / 100) (k % 100) hs' hf]
    push_cast
    ring
  rw [hmod, pyFmt05_2f_sf (k / 100) (k % 100) hs' hf]
  show pyFmtZeroPad 2 (m : ℤ) ++ _ = _
  unfold pyFmtZeroPad
  rw [if_neg (by simp), Int.natAbs_ofNat, zeroPad_natToChars m hm]
  rfl

/-- Claim C8: for every valid `MM:SS.ss` string (two-digit zero-padded
minutes, two-digit seconds below 60, exactly two decimals), formatting the
parsed seconds value round-trips:
`format_time (convert_timestamp s) = s`. -/
theorem claim_C8 (m k : ℕ) (hm : m < 100) (hk : k < 6000) :
    format_time (convert_timestamp (mmssChars m k)).toQ = mmssChars m k := by
  rw [convert_mmss m k hm hk]
  show format_time ((1 : ℚ) * (m : ℚ) * 60 +
    (1 : ℚ) * (((k / 100 : ℕ) : ℚ) +
      ((k % 100 : ℕ) : ℚ) / (10 : ℚ) ^ (pad2 (k % 100)).length)) = _
  rw [show (1 : ℚ) * (m : ℚ) * 60 +
      (1 : ℚ) * (((k / 100 : ℕ) : ℚ) +
        ((k % 100 : ℕ) : ℚ) / (10 : ℚ) ^ (pad2 (k % 100)).length) =
      60 * (m : ℚ) + ((k / 100 : ℕ) : ℚ) + ((k % 100 : ℕ) : ℚ) / 100 by
    show (1 : ℚ) * (m : ℚ) * 60 + (1 : ℚ) * (((k / 100 : ℕ) : ℚ) +
      ((k % 100 : ℕ) : ℚ) / (10 : ℚ) ^ (2 : ℕ)) = _
    norm_num
    ring]
  exact format_time_mmss m k hm hk

/-- Claim C8 witness: the round-trip at the concrete timestamp `03:15.20`. -/
theorem claim_C8_witness :
    format_time (convert_timestamp (mmssChars 3 1520)).toQ = mmssChars 3 1520 ∧
    mmssChars 3 1520 = ("03:15.20".toList) :=
  ⟨claim_C8 3 1520 (by decide) (by decide), by decide⟩

/-! ### C3: emit/parse round-trip -/

theorem splitNN_cons (c : Char) (cs : List Char)
    (h : ¬(c = '\n' ∧ cs.head? = some '\n')) :
    splitNN (c :: cs) = mapHead (c :: ·) (splitNN cs) := by
  rw [splitNN.eq_def]
  split
  · rename_i heq
    exact absurd heq (by simp)
  · rename_i cs2 heq
    obtain ⟨h1, h2⟩ := List.cons.inj heq
    exact absurd ⟨h1, by rw [h2]; rfl⟩ h
  · rename_i c2 cs2 hne heq
    obtain ⟨h1, h2⟩ := List.cons.inj heq
    subst h1; subst h2; rfl

theorem splitArrow_cons (a : Char) (cs : List Char) (h : a ≠ ' ') :
    splitArrow (a :: cs) = mapHead (a :: ·) (splitArrow cs) := by
  rw [splitArrow.eq_def]
  split
  · rename_i heq
    exact absurd heq (by simp)
  · rename_i cs2 heq
    exact absurd (List.cons.inj heq).1 h
  · rename_i c2 cs2 hne heq
    obtain ⟨h1, h2⟩ := List.cons.inj heq
    subst h1; subst h2; rfl

theorem noNN_append_left (xs ys : List Char) (h : noNN (xs ++ ys) = true) :
    noNN xs = true := by
  induction xs with
  | nil => rfl
  | cons c t ih =>
    rw [List.cons_append] at h
    simp only [noNN] at h ⊢
    by_cases hc : c = '\n' ∧ (t ++ ys).head? = some '\n'
    · rw [if_pos hc] at h; exact absurd h (by simp)
    · rw [if_neg hc] at h
      have hc' : ¬(c = '\n' ∧ t.head? = some '\n') := by
        intro hx
        apply hc
        refine ⟨hx.1, ?_⟩
        cases t with
        | nil => exact absurd hx.2 (by simp)
        | cons d ds => simpa using hx.2
      rw [if_neg hc']
      exact ih h

theorem noNN_of_no_newline (xs : List Char) (h : ∀ c ∈ xs, c ≠ '\n') :
    noNN xs = true := by
  induction xs with
  | nil => rfl
  | cons c t ih =>
    simp only [noNN]
    rw [if_neg (by intro hx; exact h c (by simp) hx.1)]
    exact ih fun a ha => h a (by simp [ha])

theorem noNN_append_cons (A B : List Char) (hA : ∀ c ∈ A, c ≠ '\n')
    (hB : noNN B = true) (hBh : ∀ c, B.head? = some c → c ≠ '\n') :
    noNN (A ++ '\n' :: B) = true := by
  induction A with
  | nil =>
    simp only [List.nil_append, noNN]
    rw [if_neg]
    · exact hB
    · intro hx
      exact hBh '\n' hx.2 rfl
  | cons a t ih =>
    simp only [List.cons_append, noNN]
    rw [if_neg (by intro hx; exact hA a (by simp) hx.1)]
    exact ih fun c hc => hA c (by simp [hc])

theorem noNN_snoc (xs : List Char) (h : noNN xs = true)
    (hl : ∀ c, xs.getLast? = some c → c ≠ '\n') :
    noNN (xs ++ ['\n']) = true := by
  induction xs with
  | nil => rfl
  | cons c t ih =>
    simp only [noNN] at h
    simp only [List.cons_append, noNN]
    by_cases hc : c = '\n' ∧ t.head? = some '\n'
    · rw [if_pos hc] at h; exact absurd h (by simp)
    · rw [if_neg hc] at h
      rw [if_neg]
      · refine ih h ?_
        intro d hd
        apply hl d
        rw [show c :: t = [c] ++ t from rfl, List.getLast?_append, hd]
        rfl
      · intro hx
        cases t with
        | nil => exact hl c (by simp) hx.1
        | cons d ds =>
          apply hc
          refine ⟨hx.1, ?_⟩
          simpa using hx.2

theorem splitNN_sep (xs ys : List Char) (h : noNN (xs ++ ['\n']) = true) :
    splitNN (xs ++ '\n' :: '\n' :: ys) = xs :: splitNN ys := by
  induction xs with
  | nil => rfl
  | cons c t ih =>
    rw [List.cons_append] at h
    simp only [noNN] at h
    by_cases hc : c = '\n' ∧ (t ++ ['\n']).head? = some '\n'
    · rw [if_pos hc] at h; exact absurd h (by simp)
    · rw [if_neg hc] at h
      rw [List.cons_append, splitNN_cons]
      · rw [ih h]; rfl
      · intro hx
        apply hc
        refine ⟨hx.1, ?_⟩
        cases t with
        | nil => rfl
        | cons d ds => simpa using hx.2

theorem splitNN_last (xs : List Char) (h : noNN xs = true) :
    splitNN xs = [xs] := by
  induction xs with
  | nil => rfl
  | cons c t ih =>
    simp only [noNN] at h
    by_cases hc : c = '\n' ∧ t.head? = some '\n'
    · rw [if_pos hc] at h; exact absurd h (by simp)
    · rw [if_neg hc] at h
      rw [splitNN_cons c t hc, ih h]
      rfl

theorem splitArrow_sep (xs ys : List Char) (h : ∀ c ∈ xs, c ≠ ' ') :
    splitArrow (xs ++ ' ' :: '-' :: '-' :: '>' :: ' ' :: ys)
      = xs :: splitArrow ys := by
  induction xs with
  | nil => rfl
  | cons a t ih =>
    rw [List.cons_append, splitArrow_cons a _ (h a (by simp)),
      ih (fun c hc => h c (by simp [hc]))]
    rfl

theorem splitArrow_last (xs : List Char) (h : ∀ c ∈ xs, c ≠ ' ') :
    splitArrow xs = [xs] := by
  induction xs with
  | nil => rfl
  | cons a t ih =>
    rw [splitArrow_cons a t (h a (by simp)), ih (fun c hc => h c (by simp [hc]))]
    rfl

theorem natToCharsAux_nospace : ∀ (fuel n : ℕ) (acc : List Char),
    (∀ c ∈ acc, isSpaceChar c = false) →
    ∀ c ∈ natToCharsAux fuel n acc, isSpaceChar c = false := by
  intro fuel
  induction fuel with
  | zero => intro n acc hacc; exact hacc
  | succ f ih =>
    intro n acc hacc c hc
    simp only [natToCharsAux] at hc
    by_cases h10 : n < 10
    · rw [if_pos h10] at hc
      rcases List.mem_cons.mp hc with rfl | hc2
      · exact (digitChar_facts n h10).2.2.2.2.1
      · exact hacc _ hc2
    · rw [if_neg h10] at hc
      refine ih (n / 10) _ ?_ c hc
      intro d hd
      rcases List.mem_cons.mp hd with rfl | hd2
      · exact (digitChar_facts (n % 10) (by omega)).2.2.2.2.1
      · exact hacc _ hd2

theorem natToChars_nospace (n : ℕ) :
    ∀ c ∈ natToChars n, isSpaceChar c = false :=
  natToCharsAux_nospace (n + 1) n [] (by simp)

theorem natToCharsAux_ne_nil : ∀ (fuel n : ℕ) (acc : List Char),
    acc ≠ [] → natToCharsAux fuel n acc ≠ [] := by
  intro fuel
  induction fuel with
  | zero => intro n acc h; exact h
  | succ f ih =>
    intro n acc h
    simp only [natToCharsAux]
    by_cases h10 : n < 10
    · rw [if_pos h10]; simp
    · rw [if_neg h10]; exact ih _ _ (by simp)

theorem natToChars_ne_nil (n : ℕ) : natToChars n ≠ [] := by
  unfold natToChars
  simp only [natToCharsAux]
  by_cases h10 : n < 10
  · rw [if_pos h10]; simp
  · rw [if_neg h10]; exact natToCharsAux_ne_nil _ _ _ (by simp)

theorem ne_newline_of_nospace (c : Char) (h : isSpaceChar c = false) :
    c ≠ '\n' := by
  intro hc; subst hc; exact absurd h (by decide)

theorem ne_space_of_nospace (c : Char) (h : isSpaceChar c = false) :
    c ≠ ' ' := by
  intro hc; subst hc; exact absurd h (by decide)

theorem trim_wrap (X : List Char) (hne : X ≠ [])
    (hhd : ∀ c, X.head? = some c → isSpaceChar c = false)
    (hlast : ∀ c, X.getLast? = some c → isSpaceChar c = false) :
    trimChars (X ++ ['\n', '\n']) = X := by
  obtain ⟨x, X', rfl⟩ := List.exists_cons_of_ne_nil hne
  unfold trimChars
  rw [List.cons_append, List.dropWhile_cons_of_neg (by simp [hhd x rfl])]
  have hrev : (x :: (X' ++ ['\n', '\n'])).reverse
      = '\n' :: '\n' :: (X'.reverse ++ [x]) := by
    simp
  rw [hrev, List.dropWhile_cons_of_pos (by decide),
    List.dropWhile_cons_of_pos (by decide)]
  have hRh : ∀ c, (X'.reverse ++ [x]).head? = some c → isSpaceChar c = false := by
    intro c hc
    apply hlast c
    rw [List.head?_append, List.head?_reverse] at hc
    rw [show x :: X' = [x] ++ X' from rfl, List.getLast?_append]
    cases hX' : X'.getLast? with
    | none => rw [hX'] at hc; simpa using hc
    | some y => rw [hX'] at hc; simpa using hc
  obtain ⟨r, R', hR'⟩ := List.exists_cons_of_ne_nil
    (show X'.reverse ++ [x] ≠ [] by simp)
  rw [hR', List.dropWhile_cons_of_neg (by simp [hRh r (by rw [hR']; rfl)]), ← hR']
  simp

theorem writeSrt_eq (e : SubEntry) (es : List SubEntry) :
    writeSrt (e :: es) = joinBlocks ((e :: es).map srtBlockCore) ++ ['\n', '\n'] := by
  induction es generalizing e with
  | nil => simp [writeSrt, joinBlocks]
  | cons e2 t ih =>
    have h1 : writeSrt (e :: e2 :: t)
        = (srtBlockCore e ++ ['\n', '\n']) ++ writeSrt (e2 :: t) := by
      simp [writeSrt]
    rw [h1, ih e2]
    simp [joinBlocks]

theorem jb_ne_nil (b : List Char) (bs : List (List Char)) (hb : b ≠ []) :
    joinBlocks (b :: bs) ≠ [] := by
  cases bs with
  | nil => exact hb
  | cons b2 t => simp [joinBlocks]

theorem jb_head (b : List Char) (bs : List (List Char)) (hb : b ≠ []) :
    (joinBlocks (b :: bs)).head? = b.head? := by
  cases bs with
  | nil => rfl
  | cons b2 t =>
    obtain ⟨x, X', rfl⟩ := List.exists_cons_of_ne_nil hb
    simp [joinBlocks]

theorem jb_last_prop (b : List Char) (bs : List (List Char))
    (hne : ∀ x ∈ b :: bs, x ≠ [])
    (hp : ∀ x ∈ b :: bs, ∀ c, x.getLast? = some c → isSpaceChar c = false) :
    ∀ c, (joinBlocks (b :: bs)).getLast? = some c → isSpaceChar c = false := by
  induction bs generalizing b with
  | nil => exact hp b (by simp)
  | cons b2 t ih =>
    intro c hc
    have hjb : joinBlocks (b :: b2 :: t)
        = b ++ '\n' :: '\n' :: joinBlocks (b2 :: t) := rfl
    rw [hjb, List.getLast?_append] at hc
    have hne2 : joinBlocks (b2 :: t) ≠ [] := jb_ne_nil b2 t (hne b2 (by simp))
    obtain ⟨y, hy⟩ : ∃ y, (joinBlocks (b2 :: t)).getLast? = some y := by
      cases hgl : (joinBlocks (b2 :: t)).getLast? with
      | none => exact absurd (List.getLast?_eq_none_iff.mp hgl) hne2
      | some y => exact ⟨y, rfl⟩
    have h4 : ('\n' :: '\n' :: joinBlocks (b2 :: t)).getLast? = some y := by
      rw [show ('\n' :: '\n' :: joinBlocks (b2 :: t) : List Char)
          = ['\n', '\n'] ++ joinBlocks (b2 :: t) from rfl,
        List.getLast?_append, hy]
      rfl
    rw [h4] at hc
    have hyc : y = c := by simpa using hc
    subst hyc
    exact ih b2 (fun x hx => hne x (List.mem_cons_of_mem b hx))
      (fun x hx => hp x (List.mem_cons_of_mem b hx)) y hy

theorem splitNN_joinBlocks (b : List Char) (bs : List (List Char))
    (h : ∀ x ∈ b :: bs, noNN (x ++ ['\n']) = true) :
    splitNN (joinBlocks (b :: bs)) = b :: bs := by
  induction bs generalizing b with
  | nil => exact splitNN_last b (noNN_append_left b ['\n'] (h b (by simp)))
  | cons b2 t ih =>
    have hjb : joinBlocks (b :: b2 :: t)
        = b ++ '\n' :: '\n' :: joinBlocks (b2 :: t) := rfl
    rw [hjb, splitNN_sep b _ (h b (by simp)),
      ih b2 (fun x hx => h x (List.mem_cons_of_mem b hx))]

theorem goodEntry_spec (e : SubEntry) (h : goodEntry e = true) :
    e.original ≠ [] ∧ e.translated ≠ [] ∧
    (∀ c ∈ e.original, c ≠ '\n') ∧ (∀ c ∈ e.translated, c ≠ '\n') ∧
    (∀ c ∈ e.start, isSpaceChar c = false) ∧
    (∀ c ∈ e.stop, isSpaceChar c = false) ∧
    (∀ c, e.translated.getLast? = some c → isSpaceChar c = false) := by
  unfold goodEntry at h
  simp only [Bool.and_eq_true] at h
  obtain ⟨⟨⟨⟨⟨⟨h1, h2⟩, h3⟩, h4⟩, h5⟩, h6⟩, h7⟩ := h
  refine ⟨?_, ?_, ?_, ?_, ?_, ?_, ?_⟩
  · simpa using h1
  · simpa using h2
  · intro c hc
    simpa using (List.all_eq_true.mp h3) c hc
  · intro c hc
    simpa using (List.all_eq_true.mp h4) c hc
  · intro c hc
    simpa using (List.all_eq_true.mp h5) c hc
  · intro c hc
    simpa using (List.all_eq_true.mp h6) c hc
  · intro c hc
    rw [hc] at h7
    simpa using h7

theorem srtBlockCore_eq (e : SubEntry) :
    srtBlockCore e = natToChars e.index ++ '\n' ::
      ((e.start ++ ' ' :: '-' :: '-' :: '>' :: ' ' :: e.stop) ++ '\n' ::
        (e.original ++ '\n' :: e.translated)) := by
  simp [srtBlockCore]

theorem core_ne_nil (e : SubEntry) : srtBlockCore e ≠ [] := by
  rw [srtBlockCore_eq]
  simp

theorem getLast?_append_cons (A : List Char) (c : Char) (B : List Char)
    (hB : B ≠ []) : (A ++ c :: B).getLast? = B.getLast? := by
  obtain ⟨y, hy⟩ : ∃ y, B.getLast? = some y := by
    cases hgl : B.getLast? with
    | none => exact absurd (List.getLast?_eq_none_iff.mp hgl) hB
    | some y => exact ⟨y, rfl⟩
  rw [List.getLast?_append,
    show (c :: B : List Char) = [c] ++ B from rfl, List.getLast?_append, hy]
  rfl

theorem head?_append_cons_of_ne_nil (A : List Char) (b : Char) (B : List Char)
    (hA : A ≠ []) : (A ++ b :: B).head? = A.head? := by
  obtain ⟨a, A', rfl⟩ := List.exists_cons_of_ne_nil hA
  rfl

theorem core_head_nospace (e : SubEntry) :
    ∀ c, (srtBlockCore e).head? = some c → isSpaceChar c = false := by
  intro c hc
  rw [srtBlockCore_eq,
    head?_append_cons_of_ne_nil _ _ _ (natToChars_ne_nil e.index)] at hc
  exact natToChars_nospace e.index c
    (List.mem_of_mem_head? (show c ∈ (natToChars e.index).head? by rw [hc]; rfl))

theorem core_last_nospace (e : SubEntry) (h : goodEntry e = true) :
    ∀ c, (srtBlockCore e).getLast? = some c → isSpaceChar c = false := by
  obtain ⟨h1, h2, h3, h4, h5, h6, h7⟩ := goodEntry_spec e h
  intro c hc
  rw [srtBlockCore_eq, getLast?_append_cons _ _ _ (by simp),
    getLast?_append_cons _ _ _ (by simp),
    getLast?_append_cons _ _ _ h2] at hc
  exact h7 c hc

theorem range_no_newline (st sp : List Char)
    (h5 : ∀ c ∈ st, isSpaceChar c = false)
    (h6 : ∀ c ∈ sp, isSpaceChar c = false) :
    ∀ c ∈ st ++ ' ' :: '-' :: '-' :: '>' :: ' ' :: sp, c ≠ '\n' := by
  intro c hc
  rcases List.mem_append.mp hc with hcs | hcr
  · exact ne_newline_of_nospace c (h5 c hcs)
  · simp only [List.mem_cons] at hcr
    rcases hcr with rfl | rfl | rfl | rfl | rfl | hcs2
    · decide
    · decide
    · decide
    · decide
    · decide
    · exact ne_newline_of_nospace c (h6 c hcs2)

theorem core_noNN (e : SubEntry) (h : goodEntry e = true) :
    noNN (srtBlockCore e ++ ['\n']) = true := by
  obtain ⟨h1, h2, h3, h4, h5, h6, h7⟩ := goodEntry_spec e h
  have hRnl := range_no_newline e.start e.stop h5 h6
  have hT : noNN e.translated = true := noNN_of_no_newline _ h4
  have hTh : ∀ c, e.translated.head? = some c → c ≠ '\n' := fun c hc =>
    h4 c (List.mem_of_mem_head? (show c ∈ e.translated.head? by rw [hc]; rfl))
  have hOT : noNN (e.original ++ '\n' :: e.translated) = true :=
    noNN_append_cons _ _ h3 hT hTh
  have hOTh : ∀ c, (e.original ++ '\n' :: e.translated).head? = some c →
      c ≠ '\n' := by
    intro c hc
    rw [head?_append_cons_of_ne_nil _ _ _ h1] at hc
    exact h3 c (List.mem_of_mem_head? (show c ∈ e.original.head? by rw [hc]; rfl))
  have hRne : (e.start ++ ' ' :: '-' :: '-' :: '>' :: ' ' :: e.stop : List Char)
      ≠ [] := by simp
  have hRh : ∀ c, ((e.start ++ ' ' :: '-' :: '-' :: '>' :: ' ' :: e.stop) ++
      '\n' :: (e.original ++ '\n' :: e.translated)).head? = some c → c ≠ '\n' := by
    intro c hc
    rw [head?_append_cons_of_ne_nil _ _ _ hRne] at hc
    exact hRnl c (List.mem_of_mem_head?
      (show c ∈ (e.start ++ ' ' :: '-' :: '-' :: '>' :: ' ' :: e.stop).head? by
        rw [hc]; rfl))
  have hAnl : ∀ c ∈ natToChars e.index, c ≠ '\n' := fun c hc =>
    ne_newline_of_nospace c (natToChars_nospace e.index c hc)
  have hcore : noNN (srtBlockCore e) = true := by
    rw [srtBlockCore_eq]
    exact noNN_append_cons _ _ hAnl (noNN_append_cons _ _ hRnl hOT hOTh) hRh
  exact noNN_snoc _ hcore
    (fun c hc => ne_newline_of_nospace c (core_last_nospace e h c hc))

theorem lines_core (e : SubEntry) (h : goodEntry e = true) :
    splitOnChar (· == '\n') (srtBlockCore e) =
      [natToChars e.index, e.start ++ ' ' :: '-' :: '-' :: '>' :: ' ' :: e.stop,
       e.original, e.translated] := by
  obtain ⟨h1, h2, h3, h4, h5, h6, h7⟩ := goodEntry_spec e h
  have hbeq : ∀ (l : List Char), (∀ c ∈ l, c ≠ '\n') →
      ∀ a ∈ l, (a == '\n') = false :=
    fun l hl a ha => beq_eq_false_iff_ne.mpr (hl a ha)
  have hAnl : ∀ c ∈ natToChars e.index, c ≠ '\n' := fun c hc =>
    ne_newline_of_nospace c (natToChars_nospace e.index c hc)
  rw [srtBlockCore_eq,
    splitOnChar_sep _ _ _ _ (hbeq _ hAnl) (by decide),
    splitOnChar_sep _ _ _ _ (hbeq _ (range_no_newline e.start e.stop h5 h6))
      (by decide),
    splitOnChar_sep _ _ _ _ (hbeq _ h3) (by decide),
    splitOnChar_single _ _ (hbeq _ h4)]

theorem parseSegment_four (seg l0 l1 l2 l3 : List Char)
    (hl : splitOnChar (· == '\n') seg = [l0, l1, l2, l3])
    (t0 t1 : List Char) (ht : splitArrow l1 = [t0, t1]) :
    parseSegment seg
      = Except.ok (some ⟨commaToDot t0, commaToDot t1, l2 ++ '\n' :: l3⟩) := by
  simp only [parseSegment]
  rw [hl]
  show (if ([l2, l3] : List (List Char)) = [] then Except.ok none
      else match splitArrow l1 with
        | s0 :: s1 :: _ => Except.ok (some
            (⟨commaToDot s0, commaToDot s1, List.intercalate ['\n'] [l2, l3]⟩
              : SrtSegment))
        | _ => Except.error ("IndexError: list index out of range".toList))
    = Except.ok (some (⟨commaToDot t0, commaToDot t1, l2 ++ '\n' :: l3⟩
      : SrtSegment))
  rw [if_neg (by simp), ht]
  show Except.ok (some (⟨commaToDot t0, commaToDot t1,
    List.intercalate ['\n'] [l2, l3]⟩ : SrtSegment)) = _
  rw [show List.intercalate ['\n'] [l2, l3] = l2 ++ '\n' :: l3 by
    simp [List.intercalate, List.intersperse]]

theorem parseSegment_core (e : SubEntry) (h : goodEntry e = true) :
    parseSegment (srtBlockCore e) = Except.ok (some (segmentOf e)) := by
  obtain ⟨h1, h2, h3, h4, h5, h6, h7⟩ := goodEntry_spec e h
  have harrow : splitArrow (e.start ++ ' ' :: '-' :: '-' :: '>' :: ' ' :: e.stop)
      = [e.start, e.stop] := by
    rw [splitArrow_sep _ _ (fun c hc => ne_space_of_nospace c (h5 c hc)),
      splitArrow_last _ (fun c hc => ne_space_of_nospace c (h6 c hc))]
  exact parseSegment_four _ _ _ _ _ (lines_core e h) _ _ harrow

theorem mapM_cores (entries : List SubEntry)
    (h : ∀ e ∈ entries, goodEntry e = true) :
    (entries.map srtBlockCore).mapM parseSegment
      = Except.ok (entries.map fun e => some (segmentOf e)) := by
  induction entries with
  | nil => rfl
  | cons e t ih =>
    rw [List.map_cons, List.mapM_cons, parseSegment_core e (h e (by simp)),
      ih (fun x hx => h x (List.mem_cons_of_mem e hx)), List.map_cons]
    rfl

theorem filterMap_some_map (l : List SubEntry) :
    List.filterMap (fun e => some (segmentOf e)) l = List.map segmentOf l := by
  induction l with
  | nil => rfl
  | cons a t ih => simp [ih]

/-- Claim C3 (amended): the emit/parse round-trip holds under the conditions
under which an entry's block survives — nonempty newline-free text lines, a
translated line not ending in whitespace, whitespace-free time strings — and
what is recovered per entry is the comma-to-dot time strings plus the original
and translated lines joined by a newline into the parser's single text field
(the parser keeps neither the index nor the two-field text split). -/
theorem claim_C3_amended (entries : List SubEntry)
    (h : ∀ e ∈ entries, goodEntry e = true) :
    parse_srt_file (writeSrt entries) = Except.ok (entries.map segmentOf) := by
  cases entries with
  | nil => rfl
  | cons e t =>
    have hcores : ∀ x ∈ srtBlockCore e :: t.map srtBlockCore,
        noNN (x ++ ['\n']) = true := by
      intro x hx
      obtain ⟨e2, he2, rfl⟩ := List.mem_map.mp (show x ∈ (e :: t).map srtBlockCore
        by simpa using hx)
      exact core_noNN e2 (h e2 he2)
    have hne : ∀ x ∈ srtBlockCore e :: t.map srtBlockCore, x ≠ [] := by
      intro x hx
      obtain ⟨e2, he2, rfl⟩ := List.mem_map.mp (show x ∈ (e :: t).map srtBlockCore
        by simpa using hx)
      exact core_ne_nil e2
    have hlastp : ∀ x ∈ srtBlockCore e :: t.map srtBlockCore,
        ∀ c, x.getLast? = some c → isSpaceChar c = false := by
      intro x hx
      obtain ⟨e2, he2, rfl⟩ := List.mem_map.mp (show x ∈ (e :: t).map srtBlockCore
        by simpa using hx)
      exact core_last_nospace e2 (h e2 he2)
    have htrim : trimChars (writeSrt (e :: t))
        = joinBlocks (srtBlockCore e :: t.map srtBlockCore) := by
      rw [writeSrt_eq, List.map_cons]
      apply trim_wrap
      · exact jb_ne_nil _ _ (core_ne_nil e)
      · intro c hc
        rw [jb_head _ _ (core_ne_nil e)] at hc
        exact core_head_nospace e c hc
      · exact jb_last_prop _ _ hne hlastp
    have hsplit : splitNN (joinBlocks (srtBlockCore e :: t.map srtBlockCore))
        = srtBlockCore e :: t.map srtBlockCore :=
      splitNN_joinBlocks _ _ hcores
    unfold parse_srt_file
    rw [htrim, hsplit, show (srtBlockCore e :: t.map srtBlockCore
        : List (List Char)) = (e :: t).map srtBlockCore from rfl,
      mapM_cores _ h]
    simp [Except.map, List.filterMap_map, Function.comp_def, filterMap_some_map]

/-- Claim C3 counterexample: the round-trip does not recover every entry. The
single entry below (an empty original line, as produced for an LRC line whose
lyric text is empty) is emitted as a block whose blank third line makes the
parser split the block into pieces of fewer than three lines each, so both
pieces are dropped and parsing returns an empty list instead of the entry's
tuple. -/
theorem claim_C3_counterexample :
    parse_srt_file (writeSrt
      [⟨1, "00:00:01,000".toList, "00:00:02,000".toList, [], "There".toList⟩])
      = Except.ok [] := by
  decide

/-- Claim C3 witness: the amended round-trip at a concrete well-formed entry. -/
theorem claim_C3_witness :
    parse_srt_file (writeSrt
      [⟨1, "00:00:01,000".toList, "00:00:02,000".toList,
         "Hi".toList, "There".toList⟩])
      = Except.ok (List.map segmentOf
        [⟨1, "00:00:01,000".toList, "00:00:02,000".toList,
           "Hi".toList, "There".toList⟩]) :=
  claim_C3_amended _ (by decide)
